import Mathlib

/-!
shell209.c : tokenizer, pipe splitter, redirection resolver, process helpers

A shallow embedding of `src/shell209.c`.

* A `char` is a `Char`; the code only compares characters with `'\0'`, `'|'`, `"<"`,
  `">"` and classifies them with `isspace`.
* A `char` buffer is a `List Char`; `buf[i]` is `mem[i]?`, and an access outside
  the list is a fault (undefined behaviour in C).
* A `char *` into the line buffer is the offset it points at; `NULL` is `none`.
  A `char *arr[]` is a `List (Option Nat)` of the array's physical size; a write
  outside it is a fault.
* Loops carry a fuel argument; the entry points pass the length of the buffer or
  array plus one, which the theorems show is enough.
* A process is its descriptor table, what it has written to `stderr` and a record of
  its `wait` calls; `fork` is modelled by running the code once per process, with the
  value `fork` returned in it. The outcome of `open`, `dup2`, `pipe` and `execvp` is
  a parameter (`OS`).
-/

namespace Shell209

/-- The constant `COMMAND_BUFFER_SIZE` (line 34). -/
def COMMAND_BUFFER_SIZE : Nat := 102

/-- The constant `MAX_COMMAND_SIZE` (line 35): the longest line `get_command` accepts. -/
def MAX_COMMAND_SIZE : Nat := COMMAND_BUFFER_SIZE - 2

/-- The string terminator `'\0'`. -/
def NUL : Char := Char.ofNat 0

/-- The classification `isspace` of `<ctype.h>` in the C locale:
space, `\t`, `\n`, `\v`, `\f`, `\r`. -/
def isspace (c : Char) : Bool :=
  c = ' ' || c = '\t' || c = '\n' || c = Char.ofNat 11 || c = Char.ofNat 12 || c = '\r'

/-- Outcome of running a piece of C code. -/
inductive Exec (α : Type) where
  /-- The code ran to its end. -/
  | ok : α → Exec α
  /-- An access outside a buffer or array. -/
  | fault : Exec α
  /-- The model's fuel ran out. -/
  | timeout : Exec α
  deriving DecidableEq, Repr

/-- The assignment `arr[k] = v` on an array of pointers; `none` when `k` is outside
the array. -/
def writeArr (arr : List (Option Nat)) (k : Nat) (v : Option Nat) : Option (List (Option Nat)) :=
  if k < arr.length then some (arr.set k v) else none

/-- The C string that starts at offset `p`: the characters up to the next `NUL`. -/
def strAt (mem : List Char) (p : Nat) : List Char :=
  (mem.drop p).takeWhile (fun c => c != NUL)

/-- The argument vector a `NULL`-terminated pointer array denotes: the strings of the
entries before the first `NULL`; `none` when the array holds no `NULL`. -/
def argv (mem : List Char) : List (Option Nat) → Option (List (List Char))
  | [] => none
  | none :: _ => some []
  | some p :: rest => (argv mem rest).map (fun l => strAt mem p :: l)

/-- A line as it sits in a buffer: its characters, the terminator, then whatever
the rest of the buffer holds. -/
def cline (s : String) (rest : List Char) : List Char := s.toList ++ NUL :: rest

/-- An array of `COMMAND_BUFFER_SIZE` pointers as the examples start from, every entry
null. The code writes an entry before it reads it, and the theorems that are not
about one input hold for any initial content. -/
def emptyArr : List (Option Nat) := List.replicate COMMAND_BUFFER_SIZE none

/-- The loop of `handle_arguments` (lines 180-192); `p` is the pointer `command_line`. -/
def handle_arguments.loop (p : Nat) :
    Nat → List Char → Nat → Nat → List (Option Nat) →
      Exec (List Char × List (Option Nat))
  | 0, _, _, _, _ => Exec.timeout
  | fuel + 1, mem, i, cmd, cmdArr =>
    match mem[p + i]? with
    | none => Exec.fault
    | some c =>
      if c = NUL then
        match writeArr cmdArr cmd none with
        | none => Exec.fault
        | some arr => Exec.ok (mem, arr)
      else if isspace c then
        let mem1 := mem.set (p + i) NUL
        match mem1[p + i + 1]? with
        | none => Exec.fault
        | some d =>
          if d ≠ NUL ∧ isspace d = false then
            match writeArr cmdArr cmd (some (p + i + 1)) with
            | none => Exec.fault
            | some arr => handle_arguments.loop p fuel mem1 (i + 1) (cmd + 1) arr
          else handle_arguments.loop p fuel mem1 (i + 1) cmd cmdArr
      else handle_arguments.loop p fuel mem (i + 1) cmd cmdArr

/-- The function `handle_arguments` (lines 177-194): `p` is `command_line`, an offset
into `mem`; the result is the buffer and `cmdArr` after the call. -/
def handle_arguments (mem : List Char) (p : Nat) (cmdArr : List (Option Nat)) :
    Exec (List Char × List (Option Nat)) :=
  match writeArr cmdArr 0 (some p) with
  | none => Exec.fault
  | some arr => handle_arguments.loop p (mem.length + 1) mem 0 1 arr

/-- The argument vector `handle_arguments` leaves in `cmdArr`, as the launcher reads it. -/
def handle_arguments.tokens (mem : List Char) (p : Nat) (cmdArr : List (Option Nat)) :
    Option (List (List Char)) :=
  match handle_arguments mem p cmdArr with
  | Exec.ok (mem1, arr) => argv mem1 arr
  | _ => none

/-- The maximal runs of non-whitespace characters of a text, left to right. -/
def maximalRuns (s : List Char) : List (List Char) :=
  (s.splitOnP isspace).filter (fun t => !t.isEmpty)

/-- The segment once the tokenizer has passed over it: every whitespace character
overwritten with the terminator. -/
def blank (s : List Char) : List Char := s.map (fun c => if isspace c then NUL else c)

/-- The offsets the loop of `handle_arguments` stores: `k + j + 1` for every `j` with
`s[j]` a whitespace character and `s[j+1]` a character that is not; `k` is the offset
of the head of `s`. -/
def tokStarts : Nat → List Char → List Nat
  | _, [] => []
  | k, c :: s =>
    if isspace c then
      match s with
      | [] => []
      | d :: _ => if isspace d then tokStarts (k + 1) s else (k + 1) :: tokStarts (k + 1) s
    else tokStarts (k + 1) s

/-- The text `parsePipes` writes to `stderr` at a pipe that is not followed by a
whitespace character (line 208). -/
def pipeWarning : String :=
  "Error: pkease input pipe correctly, there must be a speace and a command after it"

/-- What `parsePipes` leaves behind: the buffer, the array `myCommands`, the value of
the index `i` when the loop ends, and what was written to `stderr`. -/
structure Pipes where
  /-- The line buffer after the call. -/
  mem : List Char
  /-- The array `myCommands` after the call. -/
  myCommands : List (Option Nat)
  /-- The index at which the loop read the terminator that ended it. -/
  i : Nat
  /-- The diagnostics written. -/
  stderr : List String
  deriving DecidableEq, Repr

/-- The inner loop `do { i++; } while (isspace(command_line[i]))` (lines 210-212):
the value of `i` after it. -/
def parsePipes.skip : Nat → List Char → Nat → Exec Nat
  | 0, _, _ => Exec.timeout
  | fuel + 1, mem, i =>
    match mem[i + 1]? with
    | none => Exec.fault
    | some c => if isspace c then parsePipes.skip fuel mem (i + 1) else Exec.ok (i + 1)

/-- The loop of `parsePipes` (lines 203-217). -/
def parsePipes.loop :
    Nat → List Char → Nat → Nat → List (Option Nat) → List String → Exec Pipes
  | 0, _, _, _, _, _ => Exec.timeout
  | fuel + 1, mem, i, pos, myCommands, err =>
    match mem[i]? with
    | none => Exec.fault
    | some c =>
      if c = NUL then
        match writeArr myCommands pos none with
        | none => Exec.fault
        | some arr => Exec.ok ⟨mem, arr, i, err⟩
      else if c = '|' then
        let mem1 := mem.set i NUL
        match mem1[i + 1]? with
        | none => Exec.fault
        | some d =>
          let err1 := if isspace d then err else err ++ [pipeWarning]
          match parsePipes.skip (mem1.length + 1) mem1 i with
          | Exec.ok j =>
            match writeArr myCommands pos (some j) with
            | none => Exec.fault
            | some arr => parsePipes.loop fuel mem1 (j + 1) (pos + 1) arr err1
          | Exec.fault => Exec.fault
          | Exec.timeout => Exec.timeout
      else parsePipes.loop fuel mem (i + 1) pos myCommands err

/-- The function `parsePipes` (lines 200-219); `command_line` is the start of `mem`. -/
def parsePipes (mem : List Char) (myCommands : List (Option Nat)) : Exec Pipes :=
  match writeArr myCommands 0 (some 0) with
  | none => Exec.fault
  | some arr => parsePipes.loop (mem.length + 1) mem 0 1 arr []

/-- The command segments `parsePipes` leaves in `myCommands`, as strings. -/
def parsePipes.segments (mem : List Char) (myCommands : List (Option Nat)) :
    Option (List (List Char)) :=
  match parsePipes mem myCommands with
  | Exec.ok r => argv r.mem r.myCommands
  | _ => none

/-- The value of the index `i` of `parsePipes` when its loop ends. -/
def parsePipes.lastIndex (mem : List Char) (myCommands : List (Option Nat)) : Option Nat :=
  match parsePipes mem myCommands with
  | Exec.ok r => some r.i
  | _ => none

/-- The text that follows one `|` of a line, up to the next `|` or the end: the
whitespace `ws` right after the `|`, the first character `c` that is not whitespace,
and the rest `b`. -/
structure Stage where
  /-- The whitespace between the `|` and the command. -/
  ws : List Char
  /-- The first character of the command. -/
  c : Char
  /-- The rest of the text. -/
  b : List Char

/-- The stage is what its fields are said to be: `ws` is whitespace, `c` is an
ordinary character, and `b` holds no `|` and no terminator. -/
def Stage.wf (g : Stage) : Prop :=
  (∀ x ∈ g.ws, isspace x = true) ∧ isspace g.c = false ∧ g.c ≠ NUL ∧ g.c ≠ '|' ∧
    '|' ∉ g.b ∧ NUL ∉ g.b

/-- The stage as typed: the `|` and the text after it. -/
def Stage.text (g : Stage) : List Char := '|' :: g.ws ++ g.c :: g.b

/-- The stage once `parsePipes` has passed: the `|` overwritten with the terminator. -/
def Stage.split (g : Stage) : List Char := NUL :: g.ws ++ g.c :: g.b

/-- The command of the stage: its text with the `|` and the whitespace after it
dropped. -/
def Stage.command (g : Stage) : List Char := g.c :: g.b

/-- The characters of a list of stages, as typed. -/
def stagesText : List Stage → List Char
  | [] => []
  | g :: gs => g.text ++ stagesText gs

/-- The characters of a list of stages once `parsePipes` has passed. -/
def stagesSplit : List Stage → List Char
  | [] => []
  | g :: gs => g.split ++ stagesSplit gs

/-- The offsets of the commands of a list of stages that starts at offset `k`. -/
def stageOffsets : Nat → List Stage → List Nat
  | _, [] => []
  | k, g :: gs => (k + 1 + g.ws.length) :: stageOffsets (k + g.text.length) gs

/-- The diagnostics of a list of stages: one for every `|` with no whitespace after. -/
def stageWarnings : List Stage → List String
  | [] => []
  | g :: gs => (if g.ws = [] then [pipeWarning] else []) ++ stageWarnings gs

/-- The flags of an `open` call of the program. -/
inductive OpenMode where
  /-- The flag `O_RDONLY` (line 255). -/
  | readOnly
  /-- The flags `O_WRONLY | O_CREAT | O_TRUNC` with mode `0644` (line 227). -/
  | writeCreateTrunc
  deriving DecidableEq, Repr

/-- What an open file descriptor refers to. -/
inductive Desc where
  /-- What the shell was started with at descriptor `n`. -/
  | inherited (n : Nat)
  /-- A file opened by `open`. -/
  | file (path : List Char) (mode : OpenMode)
  /-- The read end of the pipe made by `helperExecutePiping`. -/
  | pipeRead
  /-- The write end of the pipe made by `helperExecutePiping`. -/
  | pipeWrite
  deriving DecidableEq, Repr

/-- The descriptor table of a process: entry `k` is what descriptor `k` refers to,
`none` when it is closed. -/
abbrev FdTable := List (Option Desc)

/-- What descriptor `k` refers to. -/
def FdTable.get (t : FdTable) (k : Nat) : Option Desc := (t[k]?).join

/-- The table with descriptor `k` rebound. -/
def FdTable.put (t : FdTable) (k : Nat) (v : Option Desc) : FdTable :=
  if k < t.length then t.set k v else t ++ List.replicate (k - t.length) none ++ [v]

/-- The lowest descriptor that is closed. -/
def FdTable.lowestFree (t : FdTable) : Nat := t.findIdx (fun d => d.isNone)

/-- The descriptor refers to an end of the pipe. -/
def Desc.isPipe : Desc → Bool
  | Desc.pipeRead => true
  | Desc.pipeWrite => true
  | _ => false

/-- No descriptor of the table refers to an end of the pipe. -/
def FdTable.noPipe (t : FdTable) : Bool :=
  t.all (fun o => match o with
    | some d => !d.isPipe
    | none => true)

/-- The table refers to the pipe through descriptor `k0` only, and `k0` is the end
`e` of it. -/
def FdTable.pipeOnlyAt (t : FdTable) (k0 : Nat) (e : Desc) : Bool :=
  decide (t.get k0 = some e) && (t.put k0 none).noPipe

/-- The decisions of the operating system the program does not control: which
`open`, `dup2`, `pipe` and `execvp` calls succeed. -/
structure OS where
  /-- Whether `open(path, flags)` succeeds. -/
  openOk : List Char → OpenMode → Bool
  /-- Whether `dup2(oldfd, newfd)` succeeds when `oldfd` is open. -/
  dup2Ok : Nat → Nat → Bool
  /-- Whether `pipe` succeeds. -/
  pipeOk : Bool
  /-- Whether `execvp` finds and starts the named program. -/
  execOk : List Char → Bool

/-- The state of one process that the helpers act on. -/
structure Proc where
  /-- The descriptor table. -/
  fds : FdTable
  /-- The diagnostics written to `stderr` so far. -/
  stderr : List String
  /-- The descriptor table at each `wait` call made so far. -/
  waits : List FdTable
  deriving DecidableEq, Repr

/-- A message written to `stderr` (`perror`, `fprintf(stderr, ...)`). -/
def Proc.diag (p : Proc) (msg : String) : Proc := { p with stderr := p.stderr ++ [msg] }

/-- The call `open(path, flags)`: the new descriptor, `none` for `-1`. -/
def sysOpen (os : OS) (path : List Char) (mode : OpenMode) (p : Proc) : Option Nat × Proc :=
  if os.openOk path mode then
    (some p.fds.lowestFree,
      { p with fds := p.fds.put p.fds.lowestFree (some (Desc.file path mode)) })
  else (none, p)

/-- The call `dup2(oldfd, newfd)`: whether it succeeded. -/
def sysDup2 (os : OS) (oldfd newfd : Nat) (p : Proc) : Bool × Proc :=
  match p.fds.get oldfd with
  | none => (false, p)
  | some d =>
    if os.dup2Ok oldfd newfd then (true, { p with fds := p.fds.put newfd (some d) })
    else (false, p)

/-- The call `close(fd)`. -/
def sysClose (fd : Nat) (p : Proc) : Proc :=
  if fd < p.fds.length then { p with fds := p.fds.set fd none } else p

/-- The call `pipe(fd)`: the descriptors `fd[0]` and `fd[1]`, `none` for `-1`. -/
def sysPipe (os : OS) (p : Proc) : Option (Nat × Nat × Proc) :=
  if os.pipeOk then
    let r := p.fds.lowestFree
    let t := p.fds.put r (some Desc.pipeRead)
    let w := t.lowestFree
    some (r, w, { p with fds := t.put w (some Desc.pipeWrite) })
  else none

/-- The call `wait(&status)`. -/
def sysWait (p : Proc) : Proc := { p with waits := p.waits ++ [p.fds] }

/-- How a stretch of code of one process ends. -/
inductive Flow (α : Type) where
  /-- It ran to its end. -/
  | cont : α → Proc → Flow α
  /-- It called `exit(status)`. -/
  | exit : Nat → Proc → Flow α
  /-- An access outside a buffer or array. -/
  | fault : Flow α
  /-- The model's fuel ran out. -/
  | timeout : Flow α
  deriving DecidableEq, Repr

/-- The loop shared, up to its constants, by `redirectOutput` (lines 224-246) and
`redirectInput` (lines 252-274): `op` is the operator compared with `strcmp`, `mode`
the flags of `open`, `target` the descriptor given to `dup2`, and `mOpen`, `mDup`,
`mNoFile` the three messages. -/
def redirect.loop (os : OS) (op : Char) (mode : OpenMode) (target : Nat)
    (mOpen mDup mNoFile : String) (mem : List Char) :
    Nat → Nat → List (Option Nat) → Proc → Flow (List (Option Nat))
  | 0, _, _, _ => Flow.timeout
  | fuel + 1, i, myArgs, p =>
    match myArgs[i]? with
    | none => Flow.fault
    | some none => Flow.cont myArgs p
    | some (some q) =>
      if strAt mem q = [op] then
        match myArgs[i + 1]? with
        | none => Flow.fault
        | some (some f) =>
          match sysOpen os (strAt mem f) mode p with
          | (none, p1) => Flow.exit 1 (p1.diag mOpen)
          | (some fd, p1) =>
            match sysDup2 os fd target p1 with
            | (false, p2) => Flow.exit 1 (p2.diag mDup)
            | (true, p2) =>
              redirect.loop os op mode target mOpen mDup mNoFile mem fuel (i + 1)
                (myArgs.set i none) (sysClose fd p2)
        | some none =>
          redirect.loop os op mode target mOpen mDup mNoFile mem fuel (i + 1) myArgs
            (p.diag mNoFile)
      else redirect.loop os op mode target mOpen mDup mNoFile mem fuel (i + 1) myArgs p

/-- The function `redirectOutput` (lines 222-247). -/
def redirectOutput (os : OS) (mem : List Char) (myArgs : List (Option Nat)) (p : Proc) :
    Flow (List (Option Nat)) :=
  redirect.loop os '>' OpenMode.writeCreateTrunc 1 "Trouble opening file\n"
    "Trouble redirecting to file\n" "Error: wrong output file address\n" mem
    (myArgs.length + 1) 0 myArgs p

/-- The function `redirectInput` (lines 250-275). -/
def redirectInput (os : OS) (mem : List Char) (myArgs : List (Option Nat)) (p : Proc) :
    Flow (List (Option Nat)) :=
  redirect.loop os '<' OpenMode.readOnly 0 "Trouble opening file\n"
    "Error redirecting to file\n" "Error: input output file address\n" mem
    (myArgs.length + 1) 0 myArgs p

/-- How the run of a helper ends in one process. -/
inductive Stop where
  /-- The call `execvp` succeeded: the process image is replaced by program `prog`,
  started with the arguments `args` and the descriptors of `p`. -/
  | launched (prog : List Char) (args : List (List Char)) (p : Proc)
  /-- The process called `exit(status)`. -/
  | exited (status : Nat) (p : Proc)
  /-- The helper returned to its caller, `execute_command`, and so to the loop of
  `main`. -/
  | returned (p : Proc)
  /-- An access outside a buffer or array. -/
  | fault
  /-- The model's fuel ran out. -/
  | timeout
  deriving DecidableEq, Repr

/-- The call `execvp(myArgs[0], myArgs)`: `none` when it returns, that is, fails.
A null `myArgs[0]` is outside the contract of `execvp`. -/
def execvp (os : OS) (mem : List Char) (myArgs : List (Option Nat)) (p : Proc) :
    Option Stop :=
  match myArgs[0]? with
  | none => some Stop.fault
  | some none => some Stop.fault
  | some (some q) =>
    match argv mem myArgs with
    | none => some Stop.fault
    | some args => if os.execOk (strAt mem q) then some (Stop.launched (strAt mem q) args p)
      else none

/-- The body of the child of `helperExecuteNoPipe` (lines 337-341). -/
def helperExecuteNoPipe.child (os : OS) (mem : List Char) (command_line : Nat)
    (myArgs : List (Option Nat)) (p : Proc) : Stop :=
  match handle_arguments mem command_line myArgs with
  | Exec.fault => Stop.fault
  | Exec.timeout => Stop.timeout
  | Exec.ok (mem1, args1) =>
    match redirectInput os mem1 args1 p with
    | Flow.fault => Stop.fault
    | Flow.timeout => Stop.timeout
    | Flow.exit st p1 => Stop.exited st p1
    | Flow.cont args2 p2 =>
      match redirectOutput os mem1 args2 p2 with
      | Flow.fault => Stop.fault
      | Flow.timeout => Stop.timeout
      | Flow.exit st p3 => Stop.exited st p3
      | Flow.cont args3 p3 =>
        match execvp os mem1 args3 p3 with
        | some stop => stop
        | none => Stop.returned p3

/-- The function `helperExecuteNoPipe` (lines 331-343) as one process runs it:
`forkRet` is what `fork` returned in that process, `myArgs` the initial content of the
local array. -/
def helperExecuteNoPipe (os : OS) (forkRet : Int) (mem : List Char) (command_line : Nat)
    (myArgs : List (Option Nat)) (p : Proc) : Stop :=
  if forkRet ≠ 0 then Stop.returned (sysWait p)
  else helperExecuteNoPipe.child os mem command_line myArgs p

/-- The code of the second child of `helperExecutePiping` from `handle_arguments` on
(lines 303-307). -/
def helperExecutePiping.stage2 (os : OS) (mem : List Char) (commands myArgs : List (Option Nat))
    (p : Proc) : Stop :=
  match commands[1]? with
  | none => Stop.fault
  | some none => Stop.fault
  | some (some seg) =>
    match handle_arguments mem seg myArgs with
    | Exec.fault => Stop.fault
    | Exec.timeout => Stop.timeout
    | Exec.ok (mem1, args1) =>
      match redirectOutput os mem1 args1 p with
      | Flow.fault => Stop.fault
      | Flow.timeout => Stop.timeout
      | Flow.exit st p1 => Stop.exited st p1
      | Flow.cont args2 p2 =>
        match execvp os mem1 args2 p2 with
        | some stop => stop
        | none => Stop.returned (p2.diag "Error: Unknown command 2\n")

/-- The code of the first child of `helperExecutePiping` from `handle_arguments` on
(lines 320-324). -/
def helperExecutePiping.stage1 (os : OS) (mem : List Char) (commands myArgs : List (Option Nat))
    (p : Proc) : Stop :=
  match commands[0]? with
  | none => Stop.fault
  | some none => Stop.fault
  | some (some seg) =>
    match handle_arguments mem seg myArgs with
    | Exec.fault => Stop.fault
    | Exec.timeout => Stop.timeout
    | Exec.ok (mem1, args1) =>
      match redirectInput os mem1 args1 p with
      | Flow.fault => Stop.fault
      | Flow.timeout => Stop.timeout
      | Flow.exit st p1 => Stop.exited st p1
      | Flow.cont args2 p2 =>
        match execvp os mem1 args2 p2 with
        | some stop => stop
        | none => Stop.returned (p2.diag "Error: Unknown command 1\n")

/-- The descriptor work of the parent of `helperExecutePiping` (lines 289-292). -/
def helperExecutePiping.parent (r w : Nat) (p : Proc) : Proc :=
  sysWait (sysWait (sysClose w (sysClose r p)))

/-- The descriptor work of the second child before `handle_arguments` (lines 297-302):
`none` when `dup2` fails. -/
def helperExecutePiping.plumb2 (os : OS) (r w : Nat) (p : Proc) : Option Proc :=
  match sysDup2 os r 0 (sysClose w p) with
  | (false, _) => none
  | (true, p1) => some (sysClose r p1)

/-- The descriptor work of the first child before `handle_arguments` (lines 314-319):
`none` when `dup2` fails. -/
def helperExecutePiping.plumb1 (os : OS) (r w : Nat) (p : Proc) : Option Proc :=
  match sysDup2 os w 1 (sysClose r p) with
  | (false, _) => none
  | (true, p1) => some (sysClose w p1)

/-- The function `helperExecutePiping` (lines 279-326) as one process runs it:
`fork1` and `fork2` are what the two `fork` calls return in that process (the first
child sees `fork1 = 0`, the second child `fork1 ≠ 0` and `fork2 = 0`, the parent
neither). -/
def helperExecutePiping (os : OS) (fork1 fork2 : Int) (mem : List Char)
    (commands myArgs : List (Option Nat)) (p : Proc) : Stop :=
  match sysPipe os p with
  | none => Stop.exited 1 (p.diag "Error creating pipe\n")
  | some (r, w, p0) =>
    if fork1 ≠ 0 then
      if fork2 ≠ 0 then Stop.returned (helperExecutePiping.parent r w p0)
      else
        match helperExecutePiping.plumb2 os r w p0 with
        | none => Stop.exited 1 ((sysClose w p0).diag "Trouble creating pipe\n")
        | some p1 => helperExecutePiping.stage2 os mem commands myArgs p1
    else
      match helperExecutePiping.plumb1 os r w p0 with
      | none => Stop.exited 1 ((sysClose r p0).diag "Trouble creating pipe\n")
      | some p1 => helperExecutePiping.stage1 os mem commands myArgs p1

/-- The function `execute_command` (lines 350-359) as one process runs it; `commands`
and `myArgs` are the initial contents of the local arrays. -/
def execute_command (os : OS) (fork1 fork2 : Int) (mem : List Char)
    (commands myArgs : List (Option Nat)) (p : Proc) : Stop :=
  match parsePipes mem commands with
  | Exec.fault => Stop.fault
  | Exec.timeout => Stop.timeout
  | Exec.ok r =>
    let p1 : Proc := { p with stderr := p.stderr ++ r.stderr }
    match r.myCommands[1]? with
    | none => Stop.fault
    | some (some _) => helperExecutePiping os fork1 fork2 r.mem r.myCommands myArgs p1
    | some none =>
      match r.myCommands[0]? with
      | some (some seg) => helperExecuteNoPipe os fork1 r.mem seg myArgs p1
      | _ => Stop.fault

/-- An operating system on which every call succeeds. -/
def allOk : OS := ⟨fun _ _ => true, fun _ _ => true, true, fun _ => true⟩

/-- An operating system on which every call succeeds except `execvp`. -/
def noSuchProgram : OS := ⟨fun _ _ => true, fun _ _ => true, true, fun _ => false⟩

/-- The process state of the shell at the prompt: the three standard descriptors. -/
def shellProc : Proc :=
  ⟨[some (Desc.inherited 0), some (Desc.inherited 1), some (Desc.inherited 2)], [], []⟩

theorem getElem?_mid {α : Type} (pre : List α) (c : α) (rest : List α) :
    (pre ++ c :: rest)[pre.length]? = some c := by
  rw [List.getElem?_append_right (Nat.le_refl _)]
  simp

theorem getElem?_mid_succ {α : Type} (pre : List α) (c d : α) (rest : List α) :
    (pre ++ c :: d :: rest)[pre.length + 1]? = some d := by
  have h := getElem?_mid (pre ++ [c]) d rest
  simpa using h

theorem set_mid {α : Type} (pre : List α) (c d : α) (rest : List α) :
    (pre ++ c :: rest).set pre.length d = pre ++ d :: rest := by
  induction pre with
  | nil => rfl
  | cons x xs ih => simp [ih]

theorem writeArr_mid (done free : List (Option Nat)) (x v : Option Nat) :
    writeArr (done ++ x :: free) done.length v = some (done ++ v :: free) := by
  simp [writeArr, set_mid]

theorem isspace_NUL : isspace NUL = false := by decide

theorem ne_NUL_of_isspace {c : Char} (h : isspace c = true) : c ≠ NUL := by
  intro hc
  rw [hc, isspace_NUL] at h
  exact Bool.noConfusion h

theorem tokStarts_plain (k : Nat) (c : Char) (s : List Char) (h : isspace c = false) :
    tokStarts k (c :: s) = tokStarts (k + 1) s := by
  simp [tokStarts, h]

theorem tokStarts_space_end (k : Nat) (c : Char) (h : isspace c = true) :
    tokStarts k [c] = [] := by
  simp [tokStarts, h]

theorem tokStarts_space_space (k : Nat) (c d : Char) (s : List Char) (h : isspace c = true)
    (hd : isspace d = true) : tokStarts k (c :: d :: s) = tokStarts (k + 1) (d :: s) := by
  simp [tokStarts, h, hd]

theorem tokStarts_space_tok (k : Nat) (c d : Char) (s : List Char) (h : isspace c = true)
    (hd : isspace d = false) :
    tokStarts k (c :: d :: s) = (k + 1) :: tokStarts (k + 1) (d :: s) := by
  simp [tokStarts, h, hd]

theorem blank_cons (c : Char) (s : List Char) :
    blank (c :: s) = (if isspace c then NUL else c) :: blank s := rfl

theorem handle_arguments_loop_end (p f : Nat) (mem : List Char) (i cmd : Nat)
    (arr arr1 : List (Option Nat)) (h : mem[p + i]? = some NUL)
    (hw : writeArr arr cmd none = some arr1) :
    handle_arguments.loop p (f + 1) mem i cmd arr = Exec.ok (mem, arr1) := by
  simp [handle_arguments.loop, h, hw]

theorem handle_arguments_loop_plain (p f : Nat) (mem : List Char) (i cmd : Nat)
    (arr : List (Option Nat)) (c : Char) (h : mem[p + i]? = some c) (hc : c ≠ NUL)
    (hsp : isspace c = false) :
    handle_arguments.loop p (f + 1) mem i cmd arr =
      handle_arguments.loop p f mem (i + 1) cmd arr := by
  simp [handle_arguments.loop, h, hc, hsp]

theorem handle_arguments_loop_space (p f : Nat) (mem : List Char) (i cmd : Nat)
    (arr : List (Option Nat)) (c d : Char) (h : mem[p + i]? = some c) (hc : c ≠ NUL)
    (hsp : isspace c = true) (h1 : (mem.set (p + i) NUL)[p + i + 1]? = some d)
    (hd : d = NUL ∨ isspace d = true) :
    handle_arguments.loop p (f + 1) mem i cmd arr =
      handle_arguments.loop p f (mem.set (p + i) NUL) (i + 1) cmd arr := by
  have : ¬ (d ≠ NUL ∧ isspace d = false) := by
    rcases hd with hd | hd <;> simp [hd]
  simp [handle_arguments.loop, h, hc, hsp, h1, this]

theorem handle_arguments_loop_tok (p f : Nat) (mem : List Char) (i cmd : Nat)
    (arr arr1 : List (Option Nat)) (c d : Char) (h : mem[p + i]? = some c) (hc : c ≠ NUL)
    (hsp : isspace c = true) (h1 : (mem.set (p + i) NUL)[p + i + 1]? = some d)
    (hd : d ≠ NUL) (hsd : isspace d = false)
    (hw : writeArr arr cmd (some (p + i + 1)) = some arr1) :
    handle_arguments.loop p (f + 1) mem i cmd arr =
      handle_arguments.loop p f (mem.set (p + i) NUL) (i + 1) (cmd + 1) arr1 := by
  simp [handle_arguments.loop, h, hc, hsp, h1, hd, hsd, hw]

/-- What the loop of `handle_arguments` does from index `i` on, `s` being the part of
the segment not yet scanned: it overwrites the whitespace of `s`, stores the offsets
`tokStarts` from `cmdArr[cmd]` on, and the end marker after them. -/
theorem handle_arguments_loop_spec (p : Nat) (tail : List Char) :
    ∀ (s pre : List Char) (fuel i cmd : Nat) (done free : List (Option Nat)),
      NUL ∉ s → pre.length = p + i → s.length < fuel → done.length = cmd →
      (tokStarts (p + i) s).length < free.length →
      handle_arguments.loop p fuel (pre ++ s ++ NUL :: tail) i cmd (done ++ free) =
        Exec.ok (pre ++ blank s ++ NUL :: tail,
          done ++ ((tokStarts (p + i) s).map some ++ [none]) ++
            free.drop ((tokStarts (p + i) s).length + 1)) := by
  intro s
  induction s with
  | nil =>
    intro pre fuel i cmd done free _ hpre hfuel hdone hfree
    obtain ⟨f, rfl⟩ : ∃ f, fuel = f + 1 := ⟨fuel - 1, by simp at hfuel; omega⟩
    cases free with
    | nil => simp [tokStarts] at hfree
    | cons x free =>
      subst hdone
      rw [handle_arguments_loop_end p f _ i _ _ (done ++ none :: free)
        (by rw [← hpre]; simpa using getElem?_mid pre NUL tail) (writeArr_mid _ _ _ _)]
      simp [blank, tokStarts]
  | cons c s ih =>
    intro pre fuel i cmd done free hs hpre hfuel hdone hfree
    obtain ⟨f, rfl⟩ : ∃ f, fuel = f + 1 := ⟨fuel - 1, by simp at hfuel; omega⟩
    have hc : c ≠ NUL := fun h => hs (by simp [h])
    have hs' : NUL ∉ s := fun h => hs (List.mem_cons_of_mem _ h)
    have hf' : s.length < f := by simp at hfuel; omega
    have hpre' : (pre ++ [c]).length = p + (i + 1) := by simp; omega
    have hpreN : (pre ++ [NUL]).length = p + (i + 1) := by simp; omega
    have hmem : pre ++ c :: s ++ NUL :: tail = pre ++ c :: (s ++ NUL :: tail) := by simp
    have hread : (pre ++ c :: s ++ NUL :: tail)[p + i]? = some c := by
      rw [hmem, ← hpre]; exact getElem?_mid _ _ _
    have hset : (pre ++ c :: s ++ NUL :: tail).set (p + i) NUL =
        (pre ++ [NUL]) ++ s ++ NUL :: tail := by
      rw [hmem, ← hpre, set_mid]; simp
    have hk : p + i + 1 = p + (i + 1) := by omega
    by_cases hsp : isspace c = true
    · -- a whitespace character: overwritten, and the next one is examined
      have hb : pre ++ blank (c :: s) ++ NUL :: tail =
          (pre ++ [NUL]) ++ blank s ++ NUL :: tail := by
        simp [blank_cons, hsp]
      cases s with
      | nil =>
        have hnext : ((pre ++ c :: [] ++ NUL :: tail).set (p + i) NUL)[p + i + 1]? =
            some NUL := by
          rw [hset, ← hpre]
          simpa using getElem?_mid_succ pre NUL NUL tail
        rw [handle_arguments_loop_space p f _ i cmd _ c NUL hread hc hsp hnext (Or.inl rfl),
          hset, hb, tokStarts_space_end _ _ hsp]
        have hrec := ih (pre ++ [NUL]) f (i + 1) cmd done free hs' hpreN hf' hdone
          (by simpa [tokStarts, hsp] using hfree)
        rw [hrec]
        simp [tokStarts]
      | cons d s =>
        have hd : d ≠ NUL := fun h => hs' (by simp [h])
        have hnext : ((pre ++ c :: (d :: s) ++ NUL :: tail).set (p + i) NUL)[p + i + 1]? =
            some d := by
          rw [hset, ← hpre]
          simpa using getElem?_mid_succ pre NUL d (s ++ NUL :: tail)
        by_cases hsd : isspace d = true
        · rw [handle_arguments_loop_space p f _ i cmd _ c d hread hc hsp hnext (Or.inr hsd),
            hset, hb, tokStarts_space_space _ _ _ _ hsp hsd, hk]
          rw [tokStarts_space_space _ _ _ _ hsp hsd, hk] at hfree
          exact ih (pre ++ [NUL]) f (i + 1) cmd done free hs' hpreN hf' hdone hfree
        · have hsd' : isspace d = false := by simpa using hsd
          rw [tokStarts_space_tok _ _ _ _ hsp hsd', hk] at hfree ⊢
          cases free with
          | nil => simp at hfree
          | cons x free =>
            subst hdone
            rw [handle_arguments_loop_tok p f _ i _ _ (done ++ some (p + i + 1) :: free) c d
              hread hc hsp hnext hd hsd' (writeArr_mid _ _ _ _), hset, hb]
            have hrec := ih (pre ++ [NUL]) f (i + 1) (done.length + 1)
              (done ++ [some (p + i + 1)]) free hs' hpreN hf' (by simp)
              (by simpa using hfree)
            have hcat : done ++ some (p + i + 1) :: free =
                (done ++ [some (p + i + 1)]) ++ free := by simp
            rw [hcat, hrec]
            simp [hk]
    · -- an ordinary character: skipped
      have hsp' : isspace c = false := by simpa using hsp
      have hb : pre ++ blank (c :: s) ++ NUL :: tail =
          (pre ++ [c]) ++ blank s ++ NUL :: tail := by
        simp [blank_cons, hsp']
      have hm : pre ++ c :: s ++ NUL :: tail = (pre ++ [c]) ++ s ++ NUL :: tail := by simp
      rw [handle_arguments_loop_plain p f _ i cmd _ c hread hc hsp', hb,
        tokStarts_plain _ _ _ hsp', hk, hm]
      rw [tokStarts_plain _ _ _ hsp', hk] at hfree
      exact ih (pre ++ [c]) f (i + 1) cmd done free hs' hpre' hf' hdone hfree

theorem tokStarts_length_le (s : List Char) :
    ∀ k, 2 * (tokStarts k s).length ≤ s.length ∧
      (∀ c s1, s = c :: s1 → isspace c = false → 2 * (tokStarts k s).length + 1 ≤ s.length) := by
  induction s with
  | nil => intro k; simp [tokStarts]
  | cons c s ih =>
    intro k
    by_cases hsp : isspace c = true
    · refine ⟨?_, fun c1 s1 h h1 => ?_⟩
      · cases s with
        | nil => simp [tokStarts_space_end _ _ hsp]
        | cons d s =>
          by_cases hsd : isspace d = true
          · rw [tokStarts_space_space _ _ _ _ hsp hsd]
            have := (ih (k + 1)).1
            simp only [List.length_cons] at this ⊢
            omega
          · have hsd1 : isspace d = false := by simpa using hsd
            rw [tokStarts_space_tok _ _ _ _ hsp hsd1]
            have := (ih (k + 1)).2 d s rfl hsd1
            simp only [List.length_cons] at this ⊢
            omega
      · cases h
        rw [hsp] at h1
        exact Bool.noConfusion h1
    · have hsp1 : isspace c = false := by simpa using hsp
      rw [tokStarts_plain _ _ _ hsp1]
      have := (ih (k + 1)).1
      refine ⟨?_, fun _ _ _ _ => ?_⟩ <;> simp only [List.length_cons] <;> omega

theorem strAt_blank (pre s tail : List Char) (hs : NUL ∉ s) :
    strAt (pre ++ blank s ++ NUL :: tail) pre.length =
      s.takeWhile (fun c => !isspace c) := by
  have hdrop : (pre ++ blank s ++ NUL :: tail).drop pre.length = blank s ++ NUL :: tail := by
    rw [List.append_assoc, List.drop_left]
  rw [strAt, hdrop]
  clear hdrop
  induction s with
  | nil => simp [blank, List.takeWhile]
  | cons c s ih =>
    have hc : c ≠ NUL := fun h => hs (by simp [h])
    have hs1 : NUL ∉ s := fun h => hs (List.mem_cons_of_mem _ h)
    by_cases hsp : isspace c = true
    · simp [blank_cons, hsp, List.takeWhile]
    · have hsp1 : isspace c = false := by simpa using hsp
      have hcb : (c != NUL) = true := by simpa using hc
      rw [blank_cons, List.cons_append]
      simp only [hsp1, Bool.false_eq_true, if_false, List.takeWhile_cons, hcb, if_true,
        Bool.not_false]
      rw [ih hs1]

theorem maximalRuns_nil : maximalRuns [] = [] := by
  simp [maximalRuns, List.splitOnP_nil]

theorem maximalRuns_space (c : Char) (s : List Char) (h : isspace c = true) :
    maximalRuns (c :: s) = maximalRuns s := by
  simp [maximalRuns, List.splitOnP_cons, h]

theorem maximalRuns_run (c : Char) (s : List Char) (h : isspace c = false) :
    maximalRuns (c :: s) = (c :: s).takeWhile (fun x => !isspace x) ::
      maximalRuns ((c :: s).dropWhile (fun x => !isspace x)) := by
  have hsplit := List.takeWhile_append_dropWhile (fun x => !isspace x) (c :: s)
  have htw : ∀ x ∈ (c :: s).takeWhile (fun x => !isspace x), ¬ isspace x = true := by
    intro x hx
    have := List.mem_takeWhile_imp hx
    simpa using this
  have hne : ((c :: s).takeWhile (fun x => !isspace x)).isEmpty = false := by
    simp [List.takeWhile, h]
  cases hdw : (c :: s).dropWhile (fun x => !isspace x) with
  | nil =>
    rw [hdw, List.append_nil] at hsplit
    rw [hsplit, maximalRuns_nil]
    have hall : ∀ x ∈ c :: s, ¬ isspace x = true := by rw [← hsplit]; exact htw
    have := List.splitOnP_eq_single isspace (c :: s) hall
    rw [hsplit] at hne
    simp [maximalRuns, this, hne]
  | cons sep rest =>
    have hsep : isspace sep = true := by
      have := List.head_dropWhile_not (fun x => !isspace x) (c :: s) (by rw [hdw]; simp)
      simpa [hdw] using this
    rw [hdw] at hsplit
    have := List.splitOnP_first isspace _ htw sep hsep rest
    rw [hsplit] at this
    rw [maximalRuns_space _ _ hsep]
    simp [maximalRuns, this, hne]

/-- The strings at the stored offsets, read in the buffer the tokenizer leaves, are
the runs of the segment that begin after a whitespace character. -/
theorem map_strAt_tokStarts (tail : List Char) :
    ∀ (s pre : List Char), NUL ∉ s →
      (tokStarts pre.length s).map (strAt (pre ++ blank s ++ NUL :: tail)) =
        maximalRuns (s.dropWhile (fun x => !isspace x)) := by
  intro s
  induction s with
  | nil => intro pre _; simp [tokStarts, maximalRuns_nil]
  | cons c s ih =>
    intro pre hs
    have hs1 : NUL ∉ s := fun h => hs (List.mem_cons_of_mem _ h)
    by_cases hsp : isspace c = true
    · have hb : pre ++ blank (c :: s) ++ NUL :: tail =
          (pre ++ [NUL]) ++ blank s ++ NUL :: tail := by
        simp [blank_cons, hsp]
      have hl : (pre ++ [NUL]).length = pre.length + 1 := by simp
      have hdw : (c :: s).dropWhile (fun x => !isspace x) = c :: s := by
        simp [List.dropWhile, hsp]
      rw [hdw, maximalRuns_space _ _ hsp, hb]
      cases s with
      | nil => simp [tokStarts_space_end _ _ hsp, maximalRuns_nil]
      | cons d s =>
        by_cases hsd : isspace d = true
        · rw [tokStarts_space_space _ _ _ _ hsp hsd, ← hl, ih (pre ++ [NUL]) hs1]
          simp [List.dropWhile, hsd]
        · have hsd1 : isspace d = false := by simpa using hsd
          rw [tokStarts_space_tok _ _ _ _ hsp hsd1, List.map_cons, ← hl,
            ih (pre ++ [NUL]) hs1, strAt_blank _ _ _ hs1, maximalRuns_run _ _ hsd1]
    · have hsp1 : isspace c = false := by simpa using hsp
      have hb : pre ++ blank (c :: s) ++ NUL :: tail =
          (pre ++ [c]) ++ blank s ++ NUL :: tail := by
        simp [blank_cons, hsp1]
      have hl : (pre ++ [c]).length = pre.length + 1 := by simp
      rw [tokStarts_plain _ _ _ hsp1, hb, ← hl, ih (pre ++ [c]) hs1]
      simp [List.dropWhile, hsp1]

theorem argv_terminated (mem : List Char) (ptrs : List Nat) (rest : List (Option Nat)) :
    argv mem (ptrs.map some ++ none :: rest) = some (ptrs.map (strAt mem)) := by
  induction ptrs with
  | nil => rfl
  | cons q ptrs ih => simp [argv, ih]

theorem nil_not_mem_maximalRuns (s : List Char) : [] ∉ maximalRuns s := by
  simp [maximalRuns]

/-- What `handle_arguments` returns on any segment `s` placed at offset `pre.length`:
the whitespace of the segment is overwritten, and `cmdArr` receives the pointer to the
segment, the offsets `tokStarts`, and the end marker. -/
theorem handle_arguments_spec (pre s tail : List Char) (cmdArr : List (Option Nat))
    (hs : NUL ∉ s) (hcap : s.length / 2 + 2 ≤ cmdArr.length) :
    handle_arguments (pre ++ s ++ NUL :: tail) pre.length cmdArr =
      Exec.ok (pre ++ blank s ++ NUL :: tail,
        (pre.length :: tokStarts pre.length s).map some ++
          none :: cmdArr.drop ((tokStarts pre.length s).length + 2)) := by
  have hlen := (tokStarts_length_le s pre.length).1
  cases cmdArr with
  | nil => simp at hcap
  | cons x free =>
    have hw : writeArr (x :: free) 0 (some pre.length) = some ([some pre.length] ++ free) :=
      writeArr_mid [] free x _
    have hloop := handle_arguments_loop_spec pre.length tail s pre
      ((pre ++ s ++ NUL :: tail).length + 1) 0 1 [some pre.length] free hs rfl
      (by simp; omega) rfl
      (by simp only [List.length_cons] at hcap; simp only [Nat.add_zero]; omega)
    simp only [handle_arguments, hw]
    rw [hloop]
    simp

/-- C1: on a non-empty segment that contains no terminator and whose first character
`c` is not whitespace, `handle_arguments`, given an array of at least `n / 2 + 2`
entries, returns, and the vector it leaves is exactly the maximal runs of
non-whitespace characters of the segment, in order, followed by the end marker; none
of the tokens is empty. -/
theorem handle_arguments_tokens (pre : List Char) (c : Char) (s tail : List Char)
    (cmdArr : List (Option Nat)) (hc : isspace c = false) (hs : NUL ∉ c :: s)
    (hcap : (c :: s).length / 2 + 2 ≤ cmdArr.length) :
    ∃ mem1 arr,
      handle_arguments (pre ++ (c :: s) ++ NUL :: tail) pre.length cmdArr = Exec.ok (mem1, arr) ∧
      argv mem1 arr = some (maximalRuns (c :: s)) ∧
      arr[(maximalRuns (c :: s)).length]? = some none ∧
      (∀ k, k < (maximalRuns (c :: s)).length → ∃ q, arr[k]? = some (some q)) ∧
      [] ∉ maximalRuns (c :: s) := by
  have hspec := handle_arguments_spec pre (c :: s) tail cmdArr hs hcap
  have hdecode : (pre.length :: tokStarts pre.length (c :: s)).map
      (strAt (pre ++ blank (c :: s) ++ NUL :: tail)) = maximalRuns (c :: s) := by
    rw [List.map_cons, map_strAt_tokStarts tail (c :: s) pre hs, strAt_blank _ _ _ hs,
      maximalRuns_run c s hc]
  have hlen : (maximalRuns (c :: s)).length = (tokStarts pre.length (c :: s)).length + 1 := by
    rw [← hdecode]; simp
  refine ⟨_, _, hspec, ?_, ?_, ?_, nil_not_mem_maximalRuns _⟩
  · rw [argv_terminated, hdecode]
  · rw [hlen]
    have := getElem?_mid ((pre.length :: tokStarts pre.length (c :: s)).map some) none
      (cmdArr.drop ((tokStarts pre.length (c :: s)).length + 2))
    simpa using this
  · intro k hk
    rw [List.getElem?_append_left (by simpa [hlen] using hk)]
    rw [hlen] at hk
    refine ⟨(pre.length :: tokStarts pre.length (c :: s))[k], ?_⟩
    rw [List.getElem?_map, List.getElem?_eq_getElem (by simpa using hk)]
    rfl

/-- The witness of C1: `"ls  -l   file.txt"` yields `["ls", "-l", "file.txt"]`. -/
theorem handle_arguments_tokens_witness :
    handle_arguments.tokens (cline "ls  -l   file.txt" []) 0
        emptyArr =
      some ["ls".toList, "-l".toList, "file.txt".toList] := by
  obtain ⟨mem1, arr, hrun, hargv, _⟩ :=
    handle_arguments_tokens [] 'l' "s  -l   file.txt".toList []
      emptyArr (by decide) (by decide) (by decide)
  have hmem : cline "ls  -l   file.txt" [] =
      [] ++ ('l' :: "s  -l   file.txt".toList) ++ NUL :: [] := by decide
  have hruns : maximalRuns ('l' :: "s  -l   file.txt".toList) =
      ["ls".toList, "-l".toList, "file.txt".toList] := by decide
  rw [handle_arguments.tokens, hmem]
  simp only [List.length_nil] at hrun
  rw [hrun]
  simp only [hargv, hruns]

/-- C10: on a segment of length `n`, `handle_arguments` writes the first
`written.length ≤ n / 2 + 2` entries of `cmdArr` and no other (tokens, then the end
marker), so an array of that many entries is enough for the call to return; in
particular the `COMMAND_BUFFER_SIZE` entries of `myArgs` are enough for every segment
of at most `MAX_COMMAND_SIZE` characters. -/
theorem handle_arguments_writes_bounded (pre s tail : List Char) (hs : NUL ∉ s) :
    (∀ cmdArr : List (Option Nat), s.length / 2 + 2 ≤ cmdArr.length →
      ∃ mem1 written,
        handle_arguments (pre ++ s ++ NUL :: tail) pre.length cmdArr =
          Exec.ok (mem1, written ++ cmdArr.drop written.length) ∧
        written.length ≤ s.length / 2 + 2 ∧
        written.getLast? = some none ∧ none ∉ written.dropLast) ∧
    (∀ cmdArr : List (Option Nat), cmdArr.length = COMMAND_BUFFER_SIZE →
      s.length ≤ MAX_COMMAND_SIZE →
      ∃ r, handle_arguments (pre ++ s ++ NUL :: tail) pre.length cmdArr = Exec.ok r ∧
        r.2.length = COMMAND_BUFFER_SIZE) := by
  have hlen := (tokStarts_length_le s pre.length).1
  have hshape : ∀ cmdArr : List (Option Nat),
      (pre.length :: tokStarts pre.length s).map some ++
          none :: cmdArr.drop ((tokStarts pre.length s).length + 2) =
        ((pre.length :: tokStarts pre.length s).map some ++ [none]) ++
          cmdArr.drop ((pre.length :: tokStarts pre.length s).map some ++ [none]).length := by
    intro cmdArr
    simp
  constructor
  · intro cmdArr hcap
    refine ⟨pre ++ blank s ++ NUL :: tail,
      (pre.length :: tokStarts pre.length s).map some ++ [none], ?_, ?_, ?_, ?_⟩
    · rw [handle_arguments_spec pre s tail cmdArr hs hcap, hshape]
    · simp only [List.length_append, List.length_map, List.length_cons, List.length_nil]
      omega
    · rw [List.getLast?_append]
      rfl
    · rw [List.dropLast_concat]
      simp
  · intro cmdArr hsize hmax
    have hcap : s.length / 2 + 2 ≤ cmdArr.length := by
      rw [hsize]
      simp only [MAX_COMMAND_SIZE, COMMAND_BUFFER_SIZE] at hmax ⊢
      omega
    refine ⟨_, handle_arguments_spec pre s tail cmdArr hs hcap, ?_⟩
    simp only [List.length_append, List.length_map, List.length_cons, List.length_drop]
    omega

/-- The witness of C10: the five characters of `"a b c"` need `5 / 2 + 2 = 4` entries,
and four entries are enough. -/
theorem handle_arguments_writes_bounded_witness :
    ∃ mem1 written,
      handle_arguments (cline "a b c" []) 0 (List.replicate 4 none) =
        Exec.ok (mem1, written ++ (List.replicate 4 none).drop written.length) ∧
      written.length ≤ 4 :=
  have h := (handle_arguments_writes_bounded [] "a b c".toList [] (by decide)).1
    (List.replicate 4 none) (by decide)
  match h with
  | ⟨mem1, written, hrun, hlen, _, _⟩ => ⟨mem1, written, hrun, hlen⟩

/-- The bound of C10 is reached: with one entry fewer the last write falls outside
the array. -/
theorem handle_arguments_small_array_faults :
    handle_arguments (cline "a b c" []) 0 (List.replicate 3 none) = Exec.fault := by
  decide

/-- C5: what the code does on the segments the claim is about. The pointer stored in
`cmdArr[0]` is the segment itself, whatever its first character: on a segment that is
empty or begins with whitespace the first entry of the vector is the empty string, and
the maximal runs of the segment follow it. -/
theorem handle_arguments_leading_whitespace (pre s tail : List Char)
    (cmdArr : List (Option Nat)) (hs : NUL ∉ s)
    (hlead : s = [] ∨ ∃ c t, s = c :: t ∧ isspace c = true)
    (hcap : s.length / 2 + 2 ≤ cmdArr.length) :
    ∃ mem1 arr,
      handle_arguments (pre ++ s ++ NUL :: tail) pre.length cmdArr = Exec.ok (mem1, arr) ∧
      argv mem1 arr = some ([] :: maximalRuns s) := by
  have hspec := handle_arguments_spec pre s tail cmdArr hs hcap
  have htw : s.takeWhile (fun x => !isspace x) = [] := by
    rcases hlead with h | ⟨c, t, h, hc⟩
    · rw [h]; rfl
    · rw [h]; simp [List.takeWhile, hc]
  have hdw : s.dropWhile (fun x => !isspace x) = s := by
    rcases hlead with h | ⟨c, t, h, hc⟩
    · rw [h]; rfl
    · rw [h]; simp [List.dropWhile, hc]
  refine ⟨_, _, hspec, ?_⟩
  rw [argv_terminated, List.map_cons, map_strAt_tokStarts tail s pre hs, strAt_blank _ _ _ hs,
    htw, hdw]

/-- The failing input of C5: `" echo hi "` yields `["", "echo", "hi"]`; the empty
segment and the segment `"  "` yield `[""]`. -/
theorem handle_arguments_leading_whitespace_witness :
    handle_arguments.tokens (cline " echo hi " []) 0 emptyArr =
        some ["".toList, "echo".toList, "hi".toList] ∧
      maximalRuns " echo hi ".toList = ["echo".toList, "hi".toList] ∧
      handle_arguments.tokens (cline "" []) 0 emptyArr = some ["".toList] ∧
      handle_arguments.tokens (cline "  " []) 0 emptyArr = some ["".toList] := by
  obtain ⟨mem1, arr, hrun, hargv⟩ :=
    handle_arguments_leading_whitespace [] " echo hi ".toList [] emptyArr (by decide)
      (Or.inr ⟨' ', "echo hi ".toList, rfl, by decide⟩) (by decide)
  have hruns : maximalRuns " echo hi ".toList = ["echo".toList, "hi".toList] := by decide
  refine ⟨?_, hruns, by decide, by decide⟩
  have hmem : cline " echo hi " [] = [] ++ " echo hi ".toList ++ NUL :: [] := rfl
  rw [handle_arguments.tokens, hmem]
  simp only [List.length_nil] at hrun
  rw [hrun]
  simp only [hargv, hruns]
  rfl

theorem parsePipes_loop_end (f : Nat) (mem : List Char) (i pos : Nat)
    (arr arr1 : List (Option Nat)) (err : List String) (h : mem[i]? = some NUL)
    (hw : writeArr arr pos none = some arr1) :
    parsePipes.loop (f + 1) mem i pos arr err = Exec.ok ⟨mem, arr1, i, err⟩ := by
  simp [parsePipes.loop, h, hw]

theorem parsePipes_loop_plain (f : Nat) (mem : List Char) (i pos : Nat)
    (arr : List (Option Nat)) (err : List String) (c : Char) (h : mem[i]? = some c)
    (hc : c ≠ NUL) (hp : c ≠ '|') :
    parsePipes.loop (f + 1) mem i pos arr err = parsePipes.loop f mem (i + 1) pos arr err := by
  simp [parsePipes.loop, h, hc, hp]

theorem parsePipes_loop_pipe (f : Nat) (mem : List Char) (i pos j : Nat)
    (arr arr1 : List (Option Nat)) (err : List String) (d : Char)
    (h : mem[i]? = some '|') (h1 : (mem.set i NUL)[i + 1]? = some d)
    (hskip : parsePipes.skip ((mem.set i NUL).length + 1) (mem.set i NUL) i = Exec.ok j)
    (hw : writeArr arr pos (some j) = some arr1) :
    parsePipes.loop (f + 1) mem i pos arr err =
      parsePipes.loop f (mem.set i NUL) (j + 1) (pos + 1) arr1
        (if isspace d then err else err ++ [pipeWarning]) := by
  have hp : ('|' : Char) ≠ NUL := by decide
  simp only [parsePipes.loop, h, hp, if_false, if_true, h1, hskip, hw]

/-- The inner loop stops on the first character after the whitespace. -/
theorem parsePipes_skip_spec (d : Char) (rest : List Char) (hd : isspace d = false) :
    ∀ (ws pre : List Char) (fuel i : Nat), (∀ x ∈ ws, isspace x = true) →
      pre.length = i + 1 → ws.length < fuel →
      parsePipes.skip fuel (pre ++ ws ++ d :: rest) i = Exec.ok (i + 1 + ws.length) := by
  intro ws
  induction ws with
  | nil =>
    intro pre fuel i _ hpre hfuel
    obtain ⟨f, rfl⟩ : ∃ f, fuel = f + 1 := ⟨fuel - 1, by simp at hfuel; omega⟩
    have hread : (pre ++ d :: rest)[i + 1]? = some d := by
      rw [← hpre]; exact getElem?_mid _ _ _
    simp [parsePipes.skip, hread, hd]
  | cons w ws ih =>
    intro pre fuel i hws hpre hfuel
    obtain ⟨f, rfl⟩ : ∃ f, fuel = f + 1 := ⟨fuel - 1, by simp at hfuel; omega⟩
    have hw : isspace w = true := hws w (List.mem_cons_self _ _)
    have hread : (pre ++ w :: ws ++ d :: rest)[i + 1]? = some w := by
      rw [← hpre, List.append_assoc]; exact getElem?_mid _ _ _
    have hm : pre ++ w :: ws ++ d :: rest = (pre ++ [w]) ++ ws ++ d :: rest := by simp
    have hrec := ih (pre ++ [w]) f (i + 1) (fun x hx => hws x (List.mem_cons_of_mem _ hx))
      (by simp; omega) (by simp at hfuel; omega)
    simp only [parsePipes.skip, hread, hw, if_true]
    rw [hm, hrec]
    simp only [List.length_cons]
    congr 1
    omega

/-- The loop passes over text that holds neither a `|` nor a terminator. -/
theorem parsePipes_loop_scan (rest : List Char) (pos : Nat) (arr : List (Option Nat))
    (err : List String) :
    ∀ (a pre : List Char) (fuel : Nat), '|' ∉ a → NUL ∉ a → a.length ≤ fuel →
      parsePipes.loop fuel (pre ++ a ++ rest) pre.length pos arr err =
        parsePipes.loop (fuel - a.length) (pre ++ a ++ rest) (pre.length + a.length) pos arr
          err := by
  intro a
  induction a with
  | nil => intro pre fuel _ _ _; simp
  | cons c a ih =>
    intro pre fuel hp hn hfuel
    obtain ⟨f, rfl⟩ : ∃ f, fuel = f + 1 := ⟨fuel - 1, by simp at hfuel; omega⟩
    have hread : (pre ++ c :: a ++ rest)[pre.length]? = some c := by
      rw [List.append_assoc]; exact getElem?_mid _ _ _
    have hm : pre ++ c :: a ++ rest = (pre ++ [c]) ++ a ++ rest := by simp
    rw [parsePipes_loop_plain f _ _ pos arr err c hread (fun h => hn (by simp [h]))
      (fun h => hp (by simp [h]))]
    have hrec := ih (pre ++ [c]) f (fun h => hp (List.mem_cons_of_mem _ h))
      (fun h => hn (List.mem_cons_of_mem _ h)) (by simp at hfuel; omega)
    rw [hm]
    simp only [List.length_append, List.length_singleton] at hrec
    rw [hrec]
    simp only [List.length_cons]
    congr 1
    · omega
    · omega

/-- What the loop of `parsePipes` does on a sequence of well-formed stages that starts
at index `pre.length`: every `|` is overwritten with the terminator and the offset of
every command is stored, then the end marker; the loop ends on the terminator of the
line. -/
theorem parsePipes_loop_stages (tail : List Char) :
    ∀ (gs : List Stage) (pre : List Char) (fuel pos : Nat) (done free : List (Option Nat))
      (err : List String),
      (∀ g ∈ gs, g.wf) → (stagesText gs).length < fuel → done.length = pos →
      gs.length < free.length →
      parsePipes.loop fuel (pre ++ stagesText gs ++ NUL :: tail) pre.length pos
          (done ++ free) err =
        Exec.ok ⟨pre ++ stagesSplit gs ++ NUL :: tail,
          done ++ ((stageOffsets pre.length gs).map some ++ none :: free.drop (gs.length + 1)),
          pre.length + (stagesText gs).length, err ++ stageWarnings gs⟩ := by
  intro gs
  induction gs with
  | nil =>
    intro pre fuel pos done free err _ hfuel hdone hfree
    obtain ⟨f, rfl⟩ : ∃ f, fuel = f + 1 := ⟨fuel - 1, by omega⟩
    cases free with
    | nil => simp at hfree
    | cons x free =>
      subst hdone
      have hread : (pre ++ stagesText [] ++ NUL :: tail)[pre.length]? = some NUL := by
        simpa [stagesText] using getElem?_mid pre NUL tail
      rw [parsePipes_loop_end f _ _ _ _ (done ++ none :: free) err hread (writeArr_mid _ _ _ _)]
      simp [stagesText, stagesSplit, stageOffsets, stageWarnings]
  | cons g gs ih =>
    intro pre fuel pos done free err hwf hfuel hdone hfree
    obtain ⟨f, rfl⟩ : ∃ f, fuel = f + 1 := ⟨fuel - 1, by omega⟩
    obtain ⟨hws, hc, hcn, _, hbp, hbn⟩ := hwf g (List.mem_cons_self _ _)
    have hwf1 : ∀ g1 ∈ gs, g1.wf := fun g1 h => hwf g1 (List.mem_cons_of_mem _ h)
    cases free with
    | nil => simp at hfree
    | cons x free =>
      subst hdone
      have hlen : (stagesText (g :: gs)).length =
          g.ws.length + g.b.length + (stagesText gs).length + 2 := by
        simp [stagesText, Stage.text]; omega
      have hm : pre ++ stagesText (g :: gs) ++ NUL :: tail =
          pre ++ '|' :: (g.ws ++ g.c :: (g.b ++ (stagesText gs ++ NUL :: tail))) := by
        simp [stagesText, Stage.text]
      have hread : (pre ++ stagesText (g :: gs) ++ NUL :: tail)[pre.length]? = some '|' := by
        rw [hm]; exact getElem?_mid _ _ _
      have hset : (pre ++ stagesText (g :: gs) ++ NUL :: tail).set pre.length NUL =
          (pre ++ [NUL]) ++ g.ws ++ g.c :: (g.b ++ (stagesText gs ++ NUL :: tail)) := by
        rw [hm, set_mid]; simp
      have hskip : parsePipes.skip
          (((pre ++ stagesText (g :: gs) ++ NUL :: tail).set pre.length NUL).length + 1)
          ((pre ++ stagesText (g :: gs) ++ NUL :: tail).set pre.length NUL) pre.length =
          Exec.ok (pre.length + 1 + g.ws.length) := by
        rw [hset]
        exact parsePipes_skip_spec g.c _ hc g.ws (pre ++ [NUL]) _ pre.length hws (by simp)
          (by simp; omega)
      have hnext : ∃ d, ((pre ++ stagesText (g :: gs) ++ NUL :: tail).set pre.length NUL)[
          pre.length + 1]? = some d ∧
          (if isspace d then err else err ++ [pipeWarning]) =
            err ++ (if g.ws = [] then [pipeWarning] else []) := by
        rw [hset]
        cases hw : g.ws with
        | nil =>
          refine ⟨g.c, ?_, by simp [hc]⟩
          simpa using getElem?_mid (pre ++ [NUL]) g.c _
        | cons w ws =>
          have hsw : isspace w = true := hws w (by rw [hw]; exact List.mem_cons_self _ _)
          refine ⟨w, ?_, by simp [hsw]⟩
          simpa using getElem?_mid (pre ++ [NUL]) w _
      obtain ⟨d, hd, herr⟩ := hnext
      rw [parsePipes_loop_pipe f _ pre.length _ _ _
        (done ++ some (pre.length + 1 + g.ws.length) :: free) err d hread hd hskip
        (writeArr_mid _ _ _ _), herr, hset]
      -- the rest of the stage is passed over, then the remaining stages follow
      have hm2 : pre ++ [NUL] ++ g.ws ++ g.c :: (g.b ++ (stagesText gs ++ NUL :: tail)) =
          (pre ++ NUL :: g.ws ++ [g.c]) ++ g.b ++ (stagesText gs ++ NUL :: tail) := by simp
      have hi : pre.length + 1 + g.ws.length + 1 = (pre ++ NUL :: g.ws ++ [g.c]).length := by
        simp; omega
      rw [hm2, hi, parsePipes_loop_scan _ _ _ _ g.b _ f hbp hbn (by omega)]
      have hm3 : pre ++ NUL :: g.ws ++ [g.c] ++ g.b ++ (stagesText gs ++ NUL :: tail) =
          (pre ++ g.split) ++ stagesText gs ++ NUL :: tail := by
        simp [Stage.split]
      have hi3 : (pre ++ NUL :: g.ws ++ [g.c]).length + g.b.length = (pre ++ g.split).length := by
        simp [Stage.split]; omega
      have hcat : done ++ some (pre.length + 1 + g.ws.length) :: free =
          (done ++ [some (pre.length + 1 + g.ws.length)]) ++ free := by simp
      rw [hm3, hi3, hcat,
        ih (pre ++ g.split) (f - g.b.length) (done.length + 1)
          (done ++ [some (pre.length + 1 + g.ws.length)]) free _ hwf1 (by omega) (by simp)
          (by simpa using hfree)]
      have hoff : (pre ++ g.split).length = pre.length + g.text.length := by
        simp [Stage.split, Stage.text]
      simp only [hoff, stagesSplit, stageOffsets, stageWarnings, stagesText, List.map_cons,
        List.append_assoc, List.singleton_append, List.length_cons, List.length_append,
        List.drop_succ_cons, Nat.add_assoc, List.cons_append, List.nil_append]

/-- The commands of the stages, read in the buffer `parsePipes` leaves. -/
theorem map_strAt_stageOffsets (tail : List Char) :
    ∀ (gs : List Stage) (pre : List Char), (∀ g ∈ gs, g.wf) →
      (stageOffsets pre.length gs).map (strAt (pre ++ stagesSplit gs ++ NUL :: tail)) =
        gs.map Stage.command := by
  intro gs
  induction gs with
  | nil => intro pre _; rfl
  | cons g gs ih =>
    intro pre hwf
    obtain ⟨_, _, hcn, _, _, hbn⟩ := hwf g (List.mem_cons_self _ _)
    have hm : pre ++ stagesSplit (g :: gs) ++ NUL :: tail =
        (pre ++ g.split) ++ stagesSplit gs ++ NUL :: tail := by
      simp [stagesSplit]
    have hoff : pre.length + g.text.length = (pre ++ g.split).length := by
      simp [Stage.split, Stage.text]
    have hhead : strAt (pre ++ stagesSplit (g :: gs) ++ NUL :: tail)
        (pre.length + 1 + g.ws.length) = g.command := by
      have hm1 : pre ++ stagesSplit (g :: gs) ++ NUL :: tail =
          (pre ++ NUL :: g.ws) ++ (g.command ++ (stagesSplit gs ++ NUL :: tail)) := by
        simp [stagesSplit, Stage.split, Stage.command]
      have hl : pre.length + 1 + g.ws.length = (pre ++ NUL :: g.ws).length := by
        simp; omega
      have hnext : ∃ rest, stagesSplit gs ++ NUL :: tail = NUL :: rest := by
        cases gs with
        | nil => exact ⟨tail, rfl⟩
        | cons g1 gs1 =>
          exact ⟨g1.ws ++ g1.c :: (g1.b ++ (stagesSplit gs1 ++ NUL :: tail)),
            by simp [stagesSplit, Stage.split]⟩
      obtain ⟨rest, hrest⟩ := hnext
      have hall : ∀ x ∈ g.command, (x != NUL) = true := by
        intro x hx
        simp only [Stage.command, List.mem_cons] at hx
        rcases hx with rfl | hx
        · simpa using hcn
        · have : x ≠ NUL := fun h => hbn (h ▸ hx)
          simpa using this
      rw [strAt, hm1, hl, List.drop_left, hrest, List.takeWhile_append_of_pos hall]
      simp [List.takeWhile]
    rw [stageOffsets, List.map_cons, hhead, List.map_cons, hm, hoff,
      ih (pre ++ g.split) (fun g1 h => hwf g1 (List.mem_cons_of_mem _ h))]

theorem strAt_zero_prefix (a rest : List Char) (hn : NUL ∉ a) :
    strAt (a ++ NUL :: rest) 0 = a := by
  have hall : ∀ x ∈ a, (x != NUL) = true := by
    intro x hx
    have : x ≠ NUL := fun h => hn (h ▸ hx)
    simpa using this
  rw [strAt, List.drop_zero, List.takeWhile_append_of_pos hall]
  simp [List.takeWhile]

theorem stagesSplit_terminated (gs : List Stage) (tail : List Char) :
    ∃ rest, stagesSplit gs ++ NUL :: tail = NUL :: rest := by
  cases gs with
  | nil => exact ⟨tail, rfl⟩
  | cons g gs =>
    exact ⟨g.ws ++ g.c :: (g.b ++ (stagesSplit gs ++ NUL :: tail)),
      by simp [stagesSplit, Stage.split]⟩

/-- What `parsePipes` returns on a line made of a first segment `a` and any number of
well-formed stages: every `|` is overwritten, and `myCommands` receives the pointer to
the line, the offset of the command of every stage, and the end marker. -/
theorem parsePipes_spec (a tail : List Char) (gs : List Stage)
    (myCommands : List (Option Nat)) (hp : '|' ∉ a) (hn : NUL ∉ a) (hwf : ∀ g ∈ gs, g.wf)
    (hcap : gs.length + 2 ≤ myCommands.length) :
    parsePipes (a ++ stagesText gs ++ NUL :: tail) myCommands =
      Exec.ok ⟨a ++ stagesSplit gs ++ NUL :: tail,
        (0 :: stageOffsets a.length gs).map some ++ none :: myCommands.drop (gs.length + 2),
        a.length + (stagesText gs).length, stageWarnings gs⟩ := by
  cases myCommands with
  | nil => simp at hcap
  | cons x free =>
    have hw : writeArr (x :: free) 0 (some 0) = some ([some 0] ++ free) :=
      writeArr_mid [] free x _
    have hscan := parsePipes_loop_scan (stagesText gs ++ NUL :: tail) 1 ([some 0] ++ free) []
      a [] ((a ++ stagesText gs ++ NUL :: tail).length + 1) hp hn (by simp; omega)
    simp only [List.nil_append, List.length_nil, Nat.zero_add] at hscan
    have hm : a ++ stagesText gs ++ NUL :: tail = a ++ (stagesText gs ++ NUL :: tail) := by
      simp
    have hloop := parsePipes_loop_stages tail gs a
      ((a ++ stagesText gs ++ NUL :: tail).length + 1 - a.length) 1 [some 0] free []
      hwf (by simp; omega) rfl (by simp only [List.length_cons] at hcap; omega)
    simp only [parsePipes, hw]
    rw [hm] at hscan hloop ⊢
    rw [hscan, hloop]
    simp

/-- The segments `parsePipes` yields on such a line: the first segment, then the
command of every stage. -/
theorem parsePipes_spec_segments (a tail : List Char) (gs : List Stage)
    (myCommands : List (Option Nat)) (hn : NUL ∉ a) (hwf : ∀ g ∈ gs, g.wf) :
    argv (a ++ stagesSplit gs ++ NUL :: tail)
        ((0 :: stageOffsets a.length gs).map some ++
          none :: myCommands.drop (gs.length + 2)) =
      some (a :: gs.map Stage.command) := by
  rw [argv_terminated, List.map_cons, map_strAt_stageOffsets tail gs a hwf]
  obtain ⟨rest, hrest⟩ := stagesSplit_terminated gs tail
  rw [List.append_assoc, hrest, strAt_zero_prefix a rest hn]

/-- C2: with an array `myCommands` of at least three entries, a line `a` without `|`
yields one segment, the whole line, and the buffer is left as it was; a line with one
`|`, followed by whitespace `ws` and then by a command
`c :: b` that begins with a character that is not whitespace, yields two segments: the
text `a` before the `|`, unchanged, and the command `c :: b`; the only change to the
buffer is the terminator written over the `|`. -/
theorem parsePipes_one_or_two_segments (a tail : List Char) (myCommands : List (Option Nat))
    (hp : '|' ∉ a) (hn : NUL ∉ a) (hcap : 3 ≤ myCommands.length) :
    (∃ r, parsePipes (a ++ NUL :: tail) myCommands = Exec.ok r ∧
        argv r.mem r.myCommands = some [a] ∧ r.mem = a ++ NUL :: tail) ∧
    (∀ (ws : List Char) (c : Char) (b : List Char),
      (∀ x ∈ ws, isspace x = true) → isspace c = false → c ≠ NUL → '|' ∉ c :: b → NUL ∉ b →
      ∃ r, parsePipes (a ++ '|' :: ws ++ c :: b ++ NUL :: tail) myCommands = Exec.ok r ∧
        argv r.mem r.myCommands = some [a, c :: b] ∧
        r.mem = a ++ NUL :: ws ++ c :: b ++ NUL :: tail) := by
  constructor
  · have hrun := parsePipes_spec a tail [] myCommands hp hn (by simp) (by simp; omega)
    have hseg := parsePipes_spec_segments a tail [] myCommands hn (by simp)
    simp only [stagesText, stagesSplit, List.append_nil] at hrun hseg
    exact ⟨_, hrun, hseg, rfl⟩
  · intro ws c b hws hc hcn hpb hnb
    have hwf : ∀ g ∈ [Stage.mk ws c b], g.wf := by
      intro g hg
      rw [List.mem_singleton] at hg
      subst hg
      exact ⟨hws, hc, hcn,
        fun h => hpb (by rw [← show c = '|' from h]; exact List.mem_cons_self _ _),
        fun h => hpb (List.mem_cons_of_mem _ h), hnb⟩
    have hrun := parsePipes_spec a tail [Stage.mk ws c b] myCommands hp hn hwf
      (by simp; omega)
    have hseg := parsePipes_spec_segments a tail [Stage.mk ws c b] myCommands hn hwf
    have ht : a ++ stagesText [Stage.mk ws c b] ++ NUL :: tail =
        a ++ '|' :: ws ++ c :: b ++ NUL :: tail := by
      simp [stagesText, Stage.text]
    have hsp : a ++ stagesSplit [Stage.mk ws c b] ++ NUL :: tail =
        a ++ NUL :: ws ++ c :: b ++ NUL :: tail := by
      simp [stagesSplit, Stage.split]
    rw [ht, hsp] at hrun
    rw [hsp] at hseg
    exact ⟨_, hrun, hseg, rfl⟩

/-- The witness of C2: `"cat file.txt | sort"` yields `"cat file.txt "` and `"sort"`,
and `"ls -l"` yields the single segment `"ls -l"`. -/
theorem parsePipes_one_or_two_segments_witness :
    parsePipes.segments (cline "ls -l" []) emptyArr =
        some ["ls -l".toList] ∧
      parsePipes.segments (cline "cat file.txt | sort" [])
          emptyArr =
        some ["cat file.txt ".toList, "sort".toList] := by
  have h1 := (parsePipes_one_or_two_segments "ls -l".toList []
    emptyArr (by decide) (by decide) (by decide)).1
  have h2 := (parsePipes_one_or_two_segments "cat file.txt ".toList []
    emptyArr (by decide) (by decide) (by decide)).2
    " ".toList 's' "ort".toList (by decide) (by decide) (by decide) (by decide) (by decide)
  obtain ⟨r1, hr1, hs1, _⟩ := h1
  obtain ⟨r2, hr2, hs2, _⟩ := h2
  have hm1 : cline "ls -l" [] = "ls -l".toList ++ NUL :: [] := rfl
  have hm2 : cline "cat file.txt | sort" [] =
      "cat file.txt ".toList ++ '|' :: " ".toList ++ 's' :: "ort".toList ++ NUL :: [] := by
    decide
  constructor
  · rw [parsePipes.segments, hm1, hr1]
    exact hs1
  · rw [parsePipes.segments, hm2, hr2]
    exact hs2

/-- C6, the claim as stated fails: on `"a | b | c"` the second `|` is a split point
too; `parsePipes` yields three segments and the second one is `"b "`, not `"b | c"`. -/
theorem parsePipes_second_pipe_is_split :
    parsePipes.segments (cline "a | b | c" []) emptyArr =
        some ["a ".toList, "b ".toList, "c".toList] ∧
      parsePipes.segments (cline "a | b | c" []) emptyArr ≠
        some ["a ".toList, "b | c".toList] := by
  decide

theorem FdTable.get_put_same (t : FdTable) (k : Nat) (v : Option Desc) :
    (t.put k v).get k = v := by
  unfold FdTable.get FdTable.put
  by_cases h : k < t.length
  · simp [h]
  · have hk : (t ++ List.replicate (k - t.length) none).length = k := by
      simp; omega
    have := getElem?_mid (t ++ List.replicate (k - t.length) none) v []
    rw [hk] at this
    simp only [h, if_false, this, Option.join]
    rfl

theorem FdTable.get_put_other (t : FdTable) (k j : Nat) (v : Option Desc) (h : j ≠ k) :
    (t.put k v).get j = t.get j := by
  unfold FdTable.get FdTable.put
  by_cases hk : k < t.length
  · simp [hk, List.getElem?_set_ne (Ne.symm h)]
  · simp only [hk, if_false]
    by_cases hj : j < t.length
    · rw [List.append_assoc, List.getElem?_append_left hj]
    · have hnone : t[j]? = none := List.getElem?_eq_none (by omega)
      rw [hnone]
      by_cases hjk : j < k
      · have hin : j < (t ++ List.replicate (k - t.length) none).length := by
          simp; omega
        rw [List.getElem?_append_left hin, List.getElem?_append_right (by omega)]
        rw [List.getElem?_replicate]
        simp
      · have hout : (t ++ List.replicate (k - t.length) none ++ [v])[j]? = none :=
          List.getElem?_eq_none (by simp; omega)
        rw [hout]

theorem FdTable.get_lowestFree (t : FdTable) : t.get t.lowestFree = none := by
  unfold FdTable.get FdTable.lowestFree
  induction t with
  | nil => rfl
  | cons o t ih =>
    cases o with
    | none => simp [List.findIdx_cons]
    | some d => simpa [List.findIdx_cons] using ih

theorem sysClose_get (fd : Nat) (p : Proc) (k : Nat) :
    (sysClose fd p).fds.get k = if k = fd then none else p.fds.get k := by
  unfold sysClose
  by_cases h : fd < p.fds.length
  · have hput : p.fds.set fd none = p.fds.put fd none := by simp [FdTable.put, h]
    simp only [h, if_true, hput]
    by_cases hk : k = fd
    · simp [hk, FdTable.get_put_same]
    · simp [hk, FdTable.get_put_other _ _ _ _ hk]
  · simp only [h, if_false]
    by_cases hk : k = fd
    · subst hk
      have : p.fds[k]? = none := List.getElem?_eq_none (by omega)
      simp [FdTable.get, this]
    · simp [hk]

theorem sysClose_stderr (fd : Nat) (p : Proc) : (sysClose fd p).stderr = p.stderr := by
  unfold sysClose
  split <;> rfl

theorem sysClose_waits (fd : Nat) (p : Proc) : (sysClose fd p).waits = p.waits := by
  unfold sysClose
  split <;> rfl

theorem sysDup2_ok (os : OS) (oldfd newfd : Nat) (p : Proc) (d : Desc)
    (h : p.fds.get oldfd = some d) (hok : os.dup2Ok oldfd newfd = true) :
    sysDup2 os oldfd newfd p = (true, { p with fds := p.fds.put newfd (some d) }) := by
  simp [sysDup2, h, hok]

theorem sysOpen_ok (os : OS) (path : List Char) (mode : OpenMode) (p : Proc)
    (h : os.openOk path mode = true) :
    ∃ p1, sysOpen os path mode p = (some p.fds.lowestFree, p1) ∧
      p1.fds = p.fds.put p.fds.lowestFree (some (Desc.file path mode)) ∧
      p1.stderr = p.stderr ∧ p1.waits = p.waits := by
  refine ⟨{ p with fds := p.fds.put p.fds.lowestFree (some (Desc.file path mode)) }, ?_,
    rfl, rfl, rfl⟩
  simp only [sysOpen, h, if_true]

theorem sysDup2_ok_ex (os : OS) (oldfd newfd : Nat) (p : Proc) (d : Desc)
    (h : p.fds.get oldfd = some d) (hok : os.dup2Ok oldfd newfd = true) :
    ∃ p1, sysDup2 os oldfd newfd p = (true, p1) ∧ p1.fds = p.fds.put newfd (some d) ∧
      p1.stderr = p.stderr ∧ p1.waits = p.waits :=
  ⟨_, sysDup2_ok os oldfd newfd p d h hok, rfl, rfl, rfl⟩

theorem FdTable.noPipe_iff (t : FdTable) :
    t.noPipe = true ↔ ∀ k d, t.get k = some d → d.isPipe = false := by
  unfold FdTable.noPipe FdTable.get
  rw [List.all_eq_true]
  constructor
  · intro h k d hk
    cases hget : t[k]? with
    | none => simp [hget] at hk
    | some o =>
      rw [hget] at hk
      have ho : o = some d := by simpa using hk
      have hmem : o ∈ t := List.getElem?_mem hget
      have := h o hmem
      rw [ho] at this
      simpa using this
  · intro h o ho
    cases o with
    | none => rfl
    | some d =>
      obtain ⟨k, hk⟩ := List.mem_iff_getElem?.mp ho
      have := h k d (by simp [hk])
      simp [this]

theorem FdTable.pipeOnlyAt_iff (t : FdTable) (k0 : Nat) (e : Desc) :
    t.pipeOnlyAt k0 e = true ↔
      t.get k0 = some e ∧ ∀ k d, k ≠ k0 → t.get k = some d → d.isPipe = false := by
  unfold FdTable.pipeOnlyAt
  rw [Bool.and_eq_true, decide_eq_true_iff, FdTable.noPipe_iff]
  constructor
  · rintro ⟨h0, h⟩
    refine ⟨h0, fun k d hk hd => h k d ?_⟩
    rw [FdTable.get_put_other _ _ _ _ hk]
    exact hd
  · rintro ⟨h0, h⟩
    refine ⟨h0, fun k d hd => ?_⟩
    by_cases hk : k = k0
    · rw [hk, FdTable.get_put_same] at hd
      exact Option.noConfusion hd
    · rw [FdTable.get_put_other _ _ _ _ hk] at hd
      exact h k d hk hd

theorem redirect_loop_end (os : OS) (op : Char) (mode : OpenMode) (target : Nat)
    (m1 m2 m3 : String) (mem : List Char) (f i : Nat) (myArgs : List (Option Nat)) (p : Proc)
    (h : myArgs[i]? = some none) :
    redirect.loop os op mode target m1 m2 m3 mem (f + 1) i myArgs p = Flow.cont myArgs p := by
  simp [redirect.loop, h]

theorem redirect_loop_skip (os : OS) (op : Char) (mode : OpenMode) (target : Nat)
    (m1 m2 m3 : String) (mem : List Char) (f i : Nat) (myArgs : List (Option Nat)) (p : Proc)
    (q : Nat) (h : myArgs[i]? = some (some q)) (hq : strAt mem q ≠ [op]) :
    redirect.loop os op mode target m1 m2 m3 mem (f + 1) i myArgs p =
      redirect.loop os op mode target m1 m2 m3 mem f (i + 1) myArgs p := by
  simp [redirect.loop, h, hq]

theorem redirect_loop_hit (os : OS) (op : Char) (mode : OpenMode) (target : Nat)
    (m1 m2 m3 : String) (mem : List Char) (f i : Nat) (myArgs : List (Option Nat))
    (p p1 p2 : Proc) (q file fd : Nat) (h : myArgs[i]? = some (some q))
    (hq : strAt mem q = [op]) (hfile : myArgs[i + 1]? = some (some file))
    (hopen : sysOpen os (strAt mem file) mode p = (some fd, p1))
    (hdup : sysDup2 os fd target p1 = (true, p2)) :
    redirect.loop os op mode target m1 m2 m3 mem (f + 1) i myArgs p =
      redirect.loop os op mode target m1 m2 m3 mem f (i + 1) (myArgs.set i none)
        (sysClose fd p2) := by
  simp [redirect.loop, h, hq, hfile, hopen, hdup]

/-- The loop passes over arguments that are not the operator. -/
theorem redirect_loop_scan (os : OS) (op : Char) (mode : OpenMode) (target : Nat)
    (m1 m2 m3 : String) (mem : List Char) (tail : List (Option Nat)) (p : Proc) :
    ∀ (ptrs : List Nat) (done : List (Option Nat)) (fuel : Nat),
      (∀ q ∈ ptrs, strAt mem q ≠ [op]) → ptrs.length ≤ fuel →
      redirect.loop os op mode target m1 m2 m3 mem fuel done.length
          (done ++ ptrs.map some ++ tail) p =
        redirect.loop os op mode target m1 m2 m3 mem (fuel - ptrs.length)
          (done.length + ptrs.length) (done ++ ptrs.map some ++ tail) p := by
  intro ptrs
  induction ptrs with
  | nil => intro done fuel _ _; simp
  | cons q ptrs ih =>
    intro done fuel hq hfuel
    obtain ⟨f, rfl⟩ : ∃ f, fuel = f + 1 := ⟨fuel - 1, by simp at hfuel; omega⟩
    have hread : (done ++ (q :: ptrs).map some ++ tail)[done.length]? = some (some q) := by
      rw [List.map_cons, List.append_assoc, List.cons_append]; exact getElem?_mid _ _ _
    have hm : done ++ (q :: ptrs).map some ++ tail =
        (done ++ [some q]) ++ ptrs.map some ++ tail := by simp
    rw [redirect_loop_skip os op mode target m1 m2 m3 mem f _ _ p q hread
      (hq q (List.mem_cons_self _ _))]
    have hrec := ih (done ++ [some q]) f (fun x hx => hq x (List.mem_cons_of_mem _ hx))
      (by simp at hfuel; omega)
    simp only [List.length_append, List.length_singleton] at hrec
    rw [hm, hrec]
    simp only [List.length_cons]
    congr 1
    · omega
    · omega

/-- C4, the claim as stated fails: with an argument after the file name,
`["sort", ">", "out.txt", "-r"]`, the vector left for the launcher is `["sort"]`, not
`["sort", "-r"]`. -/
theorem redirectOutput_drops_later_arguments :
    (match redirectOutput allOk (cline "sort" (cline ">" (cline "out.txt" (cline "-r" []))))
        ([some 0, some 5, some 7, some 15, none] ++ emptyArr) shellProc with
      | Flow.cont myArgs _ => argv (cline "sort" (cline ">" (cline "out.txt" (cline "-r" []))))
          myArgs
      | _ => none) = some ["sort".toList] ∧
    argv (cline "sort" (cline ">" (cline "out.txt" (cline "-r" []))))
        ([some 0, some 5, some 7, some 15, none] ++ emptyArr) =
      some ["sort".toList, ">".toList, "out.txt".toList, "-r".toList] := by
  decide

/-- One run of the loop of `redirectOutput` and `redirectInput` on a vector in which
the operator occurs once, followed by a file name, `open` and `dup2` succeeding: the
entry of the operator is overwritten with the end marker, nothing else in the vector
changes, and `target` is bound to the file. -/
theorem redirect_loop_truncates (os : OS) (op : Char) (mode : OpenMode) (target : Nat)
    (m1 m2 m3 : String) (mem : List Char) (before after : List Nat) (opq file : Nat)
    (rest : List (Option Nat)) (p : Proc)
    (hop : strAt mem opq = [op])
    (hbefore : ∀ q ∈ before, strAt mem q ≠ [op])
    (hafter : ∀ q ∈ file :: after, strAt mem q ≠ [op])
    (hopen : os.openOk (strAt mem file) mode = true)
    (hdup : os.dup2Ok p.fds.lowestFree target = true) :
    ∃ q, redirect.loop os op mode target m1 m2 m3 mem
          (((before ++ opq :: file :: after).map some ++ none :: rest).length + 1) 0
          ((before ++ opq :: file :: after).map some ++ none :: rest) p =
        Flow.cont (before.map some ++ none :: ((file :: after).map some ++ none :: rest)) q ∧
      (∀ k, q.fds.get k =
        if k = p.fds.lowestFree then none
        else if k = target then some (Desc.file (strAt mem file) mode) else p.fds.get k) ∧
      q.stderr = p.stderr ∧ q.waits = p.waits := by
  obtain ⟨p1, hsysopen, hp1, hp1e, hp1w⟩ := sysOpen_ok os (strAt mem file) mode p hopen
  obtain ⟨p2, hsysdup, hp2, hp2e, hp2w⟩ := sysDup2_ok_ex os p.fds.lowestFree target p1
    (Desc.file (strAt mem file) mode)
    (by rw [hp1]; exact FdTable.get_put_same _ _ _) hdup
  refine ⟨sysClose p.fds.lowestFree p2, ?_, ?_, ?_, ?_⟩
  · -- the run of the loop
    have hargs : (before ++ opq :: file :: after).map some ++ none :: rest =
        before.map some ++ (some opq :: some file :: (after.map some ++ none :: rest)) := by
      simp
    have hlen : ((before ++ opq :: file :: after).map some ++ none :: rest).length =
        before.length + after.length + rest.length + 3 := by
      simp; omega
    have hscan1 := redirect_loop_scan os op mode target m1 m2 m3 mem
      (some opq :: some file :: (after.map some ++ none :: rest)) p before []
      (before.length + after.length + rest.length + 3 + 1) hbefore (by omega)
    obtain ⟨f, hf⟩ : ∃ f, before.length + after.length + rest.length + 3 + 1 - before.length =
        f + 1 := ⟨after.length + rest.length + 3, by omega⟩
    have hidx : ([] : List (Option Nat)).length + before.length = (before.map some).length := by
      simp
    rw [hf, hidx] at hscan1
    simp only [List.length_nil, List.nil_append] at hscan1
    have hhit := redirect_loop_hit os op mode target m1 m2 m3 mem f (before.map some).length
      (before.map some ++ some opq :: some file :: (after.map some ++ none :: rest))
      p p1 p2 opq file p.fds.lowestFree (getElem?_mid _ _ _) hop
      (getElem?_mid_succ _ _ _ _) hsysopen hsysdup
    rw [set_mid] at hhit
    have hm : before.map some ++ none :: some file :: (after.map some ++ none :: rest) =
        (before.map some ++ [none]) ++ (file :: after).map some ++ (none :: rest) := by simp
    have hi : (before.map some).length + 1 = (before.map some ++ [none]).length := by simp
    rw [hm, hi] at hhit
    have hscan2 := redirect_loop_scan os op mode target m1 m2 m3 mem (none :: rest)
      (sysClose p.fds.lowestFree p2) (file :: after) (before.map some ++ [none]) f hafter
      (by simp only [List.length_cons]; omega)
    obtain ⟨f1, hf1⟩ : ∃ f1, f - (file :: after).length = f1 + 1 :=
      ⟨rest.length + 1, by simp only [List.length_cons]; omega⟩
    have hi2 : (before.map some ++ [none]).length + (file :: after).length =
        (before.map some ++ [none] ++ (file :: after).map some).length := by
      simp; omega
    rw [hf1, hi2] at hscan2
    have hend := redirect_loop_end os op mode target m1 m2 m3 mem f1
      (before.map some ++ [none] ++ (file :: after).map some).length
      (before.map some ++ [none] ++ (file :: after).map some ++ none :: rest)
      (sysClose p.fds.lowestFree p2) (getElem?_mid _ _ _)
    rw [hlen, hargs, hscan1, hhit, hscan2, hend]
    simp
  · intro k
    rw [sysClose_get]
    by_cases hk : k = p.fds.lowestFree
    · simp [hk]
    · rw [if_neg hk, if_neg hk, hp2]
      by_cases hkt : k = target
      · rw [if_pos hkt, hkt, FdTable.get_put_same]
      · rw [if_neg hkt, FdTable.get_put_other _ _ _ _ hkt, hp1,
          FdTable.get_put_other _ _ _ _ hk]
  · rw [sysClose_stderr, hp2e, hp1e]
  · rw [sysClose_waits, hp2w, hp1w]

/-- C4, amended: when `">"` occurs once, followed by a file name, and `open` and
`dup2` succeed, `redirectOutput` returns after overwriting the entry of the operator
with the end marker and nothing else: the vector left for the launcher is the
arguments before the operator, in order; the operator, the file name and the
arguments after the file name are not in it. Standard output, when it was open, is
bound to the file. When the file name is the last argument this is the original
vector with the operator and the file name deleted. -/
theorem redirectOutput_truncates_at_operator (os : OS) (mem : List Char)
    (before after : List Nat) (op file : Nat) (rest : List (Option Nat)) (p : Proc)
    (hop : strAt mem op = ['>'])
    (hbefore : ∀ q ∈ before, strAt mem q ≠ ['>'])
    (hafter : ∀ q ∈ file :: after, strAt mem q ≠ ['>'])
    (hopen : os.openOk (strAt mem file) OpenMode.writeCreateTrunc = true)
    (hdup : os.dup2Ok p.fds.lowestFree 1 = true)
    (hout : p.fds.get 1 ≠ none) :
    ∃ q, redirectOutput os mem ((before ++ op :: file :: after).map some ++ none :: rest) p =
        Flow.cont (before.map some ++ none :: ((file :: after).map some ++ none :: rest)) q ∧
      argv mem (before.map some ++ none :: ((file :: after).map some ++ none :: rest)) =
        some (before.map (strAt mem)) ∧
      q.fds.get 1 = some (Desc.file (strAt mem file) OpenMode.writeCreateTrunc) ∧
      q.stderr = p.stderr ∧
      (after = [] →
        argv mem (before.map some ++ none :: ((file :: after).map some ++ none :: rest)) =
          some ((before ++ after).map (strAt mem))) := by
  have hfd : (1 : Nat) ≠ p.fds.lowestFree := by
    intro h
    have := FdTable.get_lowestFree p.fds
    rw [← h] at this
    exact hout this
  obtain ⟨q, hrun, hget, herr, _⟩ := redirect_loop_truncates os '>' OpenMode.writeCreateTrunc 1
    "Trouble opening file\n" "Trouble redirecting to file\n"
    "Error: wrong output file address\n" mem before after op file rest p hop hbefore hafter
    hopen hdup
  refine ⟨q, hrun, argv_terminated mem before _, ?_, herr, ?_⟩
  · rw [hget 1, if_neg hfd, if_pos rfl]
  · intro h
    rw [h, List.append_nil]
    exact argv_terminated mem before _

/-- The witness of C4, amended: `["sort", ">", "out.txt"]` becomes `["sort"]` and
standard output is bound to `out.txt`. -/
theorem redirectOutput_truncates_at_operator_witness :
    ∃ q, redirectOutput allOk (cline "sort" (cline ">" (cline "out.txt" [])))
        ([some 0, some 5, some 7, none] ++ emptyArr) shellProc =
        Flow.cont ([some 0, none, some 7, none] ++ emptyArr) q ∧
      argv (cline "sort" (cline ">" (cline "out.txt" [])))
        ([some 0, none, some 7, none] ++ emptyArr) = some ["sort".toList] ∧
      q.fds.get 1 = some (Desc.file "out.txt".toList OpenMode.writeCreateTrunc) := by
  obtain ⟨q, hrun, hargv, hfd, _, _⟩ :=
    redirectOutput_truncates_at_operator allOk (cline "sort" (cline ">" (cline "out.txt" [])))
      [0] [] 5 7 emptyArr shellProc (by decide) (by decide) (by decide) (by decide)
      (by decide) (by decide)
  exact ⟨q, hrun, hargv, hfd⟩

/-- C6, amended: on a line with two or more `|`, each followed, after optional
whitespace, by a character that is neither whitespace nor `|`, `parsePipes` splits at
every `|`: it overwrites each of them with the terminator and yields the text before
the first `|` and then the command of every stage, so no segment holds a `|`;
`execute_command` takes the pipeline branch with these segments, and the second stage,
which reads `commands[1]`, receives the text between the first and the second `|`
with its leading whitespace skipped. -/
theorem parsePipes_splits_at_every_pipe (os : OS) (fork1 fork2 : Int) (a tail : List Char)
    (g1 g2 : Stage) (gs : List Stage) (commands myArgs : List (Option Nat)) (p : Proc)
    (hp : '|' ∉ a) (hn : NUL ∉ a) (hwf : ∀ g ∈ g1 :: g2 :: gs, g.wf)
    (hcap : gs.length + 4 ≤ commands.length) :
    ∃ r, parsePipes (a ++ stagesText (g1 :: g2 :: gs) ++ NUL :: tail) commands = Exec.ok r ∧
      r.mem = a ++ stagesSplit (g1 :: g2 :: gs) ++ NUL :: tail ∧
      argv r.mem r.myCommands =
        some (a :: g1.command :: g2.command :: gs.map Stage.command) ∧
      (∃ q, r.myCommands[1]? = some (some q) ∧ strAt r.mem q = g1.command) ∧
      '|' ∉ g1.command ∧
      execute_command os fork1 fork2 (a ++ stagesText (g1 :: g2 :: gs) ++ NUL :: tail)
          commands myArgs p =
        helperExecutePiping os fork1 fork2 r.mem r.myCommands myArgs
          { p with stderr := p.stderr ++ r.stderr } := by
  have hrun := parsePipes_spec a tail (g1 :: g2 :: gs) commands hp hn hwf
    (by simp only [List.length_cons]; omega)
  have hseg := parsePipes_spec_segments a tail (g1 :: g2 :: gs) commands hn hwf
  have hoffs := map_strAt_stageOffsets tail (g1 :: g2 :: gs) a hwf
  have hwf1 := hwf g1 (List.mem_cons_self _ _)
  have hsecond : ((0 :: stageOffsets a.length (g1 :: g2 :: gs)).map some ++
      none :: commands.drop ((g1 :: g2 :: gs).length + 2))[1]? =
      some (some (a.length + 1 + g1.ws.length)) := by
    simp [stageOffsets]
  refine ⟨_, hrun, rfl, hseg, ⟨a.length + 1 + g1.ws.length, hsecond, ?_⟩, ?_, ?_⟩
  · simp only [stageOffsets, List.map_cons, List.cons.injEq] at hoffs
    exact hoffs.1
  · intro h
    simp only [Stage.command, List.mem_cons] at h
    rcases h with h | h
    · exact hwf1.2.2.2.1 h.symm
    · exact hwf1.2.2.2.2.1 h
  · simp only [execute_command, hrun, hsecond]

/-- The witness of C6, amended: `"a | b | c"` yields `"a "`, `"b"` followed by its
terminator, and `"c"`. -/
theorem parsePipes_splits_at_every_pipe_witness :
    ∃ r, parsePipes (cline "a | b | c" []) emptyArr = Exec.ok r ∧
      argv r.mem r.myCommands = some ["a ".toList, "b ".toList, "c".toList] := by
  obtain ⟨r, hrun, _, hseg, _⟩ :=
    parsePipes_splits_at_every_pipe allOk 1 0 "a ".toList [] ⟨" ".toList, 'b', " ".toList⟩
      ⟨" ".toList, 'c', []⟩ [] emptyArr emptyArr shellProc (by decide) (by decide)
      (by
        intro g hg
        simp only [List.mem_cons, List.mem_singleton, List.not_mem_nil, or_false] at hg
        rcases hg with rfl | rfl <;>
          exact ⟨by decide, by decide, by decide, by decide, by decide, by decide⟩)
      (by decide)
  exact ⟨r, hrun, hseg⟩

/-- C3: what the code does on a tokenized command of the documented form, the
arguments `prog` followed by `<`, a file name, `>`, a file name. `redirectInput`
overwrites the entry of `"<"` with the end marker, so the scan of `redirectOutput`
ends there, before `">"`: `redirectOutput` returns with the vector and the process as
they were, standard output is still what it was before the two calls, and the output
file is not opened. -/
theorem helperExecuteNoPipe_output_redirection_lost (os : OS) (mem : List Char)
    (prog : List Nat) (lt inf gt outf : Nat) (rest : List (Option Nat)) (p : Proc)
    (hlt : strAt mem lt = ['<']) (hgt : strAt mem gt = ['>'])
    (hprog : ∀ q ∈ prog, strAt mem q ≠ ['<'] ∧ strAt mem q ≠ ['>'])
    (hinf : strAt mem inf ≠ ['<']) (houtf : strAt mem outf ≠ ['<'])
    (hopen : os.openOk (strAt mem inf) OpenMode.readOnly = true)
    (hdup : os.dup2Ok p.fds.lowestFree 0 = true)
    (hstd : p.fds.get 0 ≠ none ∧ p.fds.get 1 ≠ none) :
    ∃ args q,
      redirectInput os mem ((prog ++ [lt, inf, gt, outf]).map some ++ none :: rest) p =
        Flow.cont args q ∧
      redirectOutput os mem args q = Flow.cont args q ∧
      argv mem args = some (prog.map (strAt mem)) ∧
      q.fds.get 0 = some (Desc.file (strAt mem inf) OpenMode.readOnly) ∧
      q.fds.get 1 = p.fds.get 1 := by
  have hfree := FdTable.get_lowestFree p.fds
  have h0 : (0 : Nat) ≠ p.fds.lowestFree := fun h => hstd.1 (by rw [h]; exact hfree)
  have h1 : (1 : Nat) ≠ p.fds.lowestFree := fun h => hstd.2 (by rw [h]; exact hfree)
  have hafter : ∀ q ∈ inf :: [gt, outf], strAt mem q ≠ ['<'] := by
    intro q hq
    simp only [List.mem_cons, List.mem_singleton, List.not_mem_nil, or_false] at hq
    rcases hq with rfl | rfl | rfl
    · exact hinf
    · rw [hgt]; decide
    · exact houtf
  obtain ⟨q, hrun, hget, _, _⟩ := redirect_loop_truncates os '<' OpenMode.readOnly 0
    "Trouble opening file\n" "Error redirecting to file\n"
    "Error: input output file address\n" mem prog [gt, outf] lt inf rest p hlt
    (fun x hx => (hprog x hx).1) hafter hopen hdup
  refine ⟨_, q, hrun, ?_, argv_terminated mem prog _, ?_, ?_⟩
  · -- the scan of redirectOutput ends on the entry redirectInput has overwritten
    have hscan := redirect_loop_scan os '>' OpenMode.writeCreateTrunc 1
      "Trouble opening file\n" "Trouble redirecting to file\n"
      "Error: wrong output file address\n" mem
      (none :: ((inf :: [gt, outf]).map some ++ none :: rest)) q prog []
      ((prog.map some ++ none :: ((inf :: [gt, outf]).map some ++ none :: rest)).length + 1)
      (fun x hx => (hprog x hx).2) (by simp; omega)
    obtain ⟨f, hf⟩ : ∃ f,
        (prog.map some ++ none :: ((inf :: [gt, outf]).map some ++ none :: rest)).length + 1 -
          prog.length = f + 1 := ⟨rest.length + 5, by simp; omega⟩
    have hidx : ([] : List (Option Nat)).length + prog.length = (prog.map some).length := by
      simp
    rw [hf, hidx] at hscan
    simp only [List.length_nil, List.nil_append] at hscan
    unfold redirectOutput
    rw [hscan, redirect_loop_end _ _ _ _ _ _ _ _ f _ _ _ (getElem?_mid _ _ _)]
  · rw [hget 0, if_neg h0, if_pos rfl]
  · rw [hget 1, if_neg h1, if_neg (by decide)]

/-- The failing input of C3: the line `"sort -r < in.txt > out.txt"`. The child of
`helperExecuteNoPipe` launches `sort -r` with standard input bound to `in.txt` and
standard output still the one of the shell; with the two redirections typed in the
other order both are applied. -/
theorem helperExecuteNoPipe_output_redirection_lost_witness :
    (∃ args q,
      redirectInput allOk
          (cline "sort" (cline "-r" (cline "<" (cline "in.txt" (cline ">" (cline "out.txt" []))))))
          ([some 0, some 5, some 8, some 10, some 17, some 19, none] ++ emptyArr) shellProc =
        Flow.cont args q ∧
      redirectOutput allOk
          (cline "sort" (cline "-r" (cline "<" (cline "in.txt" (cline ">" (cline "out.txt" []))))))
          args q = Flow.cont args q ∧
      q.fds.get 1 = some (Desc.inherited 1)) ∧
    helperExecuteNoPipe allOk 0 (cline "sort -r < in.txt > out.txt" []) 0 emptyArr shellProc =
        Stop.launched "sort".toList ["sort".toList, "-r".toList]
          ⟨[some (Desc.file "in.txt".toList OpenMode.readOnly), some (Desc.inherited 1),
            some (Desc.inherited 2), none], [], []⟩ ∧
    helperExecuteNoPipe allOk 0 (cline "sort -r > out.txt < in.txt" []) 0 emptyArr shellProc =
        Stop.launched "sort".toList ["sort".toList, "-r".toList]
          ⟨[some (Desc.file "in.txt".toList OpenMode.readOnly),
            some (Desc.file "out.txt".toList OpenMode.writeCreateTrunc),
            some (Desc.inherited 2), none], [], []⟩ := by
  obtain ⟨args, q, hin, hout, _, _, hfd⟩ :=
    helperExecuteNoPipe_output_redirection_lost allOk
      (cline "sort" (cline "-r" (cline "<" (cline "in.txt" (cline ">" (cline "out.txt" []))))))
      [0, 5] 8 10 17 19 emptyArr shellProc (by decide) (by decide) (by decide) (by decide)
      (by decide) (by decide) (by decide) (by decide)
  exact ⟨⟨args, q, hin, hout, hfd⟩, by decide, by decide⟩

theorem parsePipes_loop_fault (f : Nat) (mem : List Char) (i pos : Nat)
    (arr : List (Option Nat)) (err : List String) (h : mem[i]? = none) :
    parsePipes.loop (f + 1) mem i pos arr err = Exec.fault := by
  simp [parsePipes.loop, h]

/-- On a line that ends with a `|` and whitespace, the run of `parsePipes` comes to the
test of its `while` with `i` one past the terminator of the line. -/
theorem parsePipes_trailing_pipe (a ws rest : List Char) (x y : Option Nat)
    (free : List (Option Nat)) (hp : '|' ∉ a) (hn : NUL ∉ a)
    (hws : ∀ c ∈ ws, isspace c = true) :
    ∃ f err, parsePipes (a ++ '|' :: ws ++ NUL :: rest) (x :: y :: free) =
      parsePipes.loop (f + 1) (a ++ NUL :: ws ++ NUL :: rest) ((a ++ '|' :: ws).length + 1) 2
        (some 0 :: some (a.length + 1 + ws.length) :: free) err := by
  have hw : writeArr (x :: y :: free) 0 (some 0) = some ([some 0] ++ y :: free) :=
    writeArr_mid [] (y :: free) x _
  have hm : a ++ '|' :: ws ++ NUL :: rest = [] ++ a ++ ('|' :: (ws ++ NUL :: rest)) := by simp
  have hscan := parsePipes_loop_scan ('|' :: (ws ++ NUL :: rest)) 1 ([some 0] ++ y :: free) []
    a [] ((a ++ '|' :: ws ++ NUL :: rest).length + 1) hp hn (by simp; omega)
  obtain ⟨f, hf⟩ : ∃ f, (a ++ '|' :: ws ++ NUL :: rest).length + 1 - a.length = f + 1 + 1 :=
    ⟨ws.length + rest.length + 1, by simp; omega⟩
  rw [hf] at hscan
  simp only [List.length_nil, Nat.zero_add, List.nil_append] at hscan hm
  rw [hm] at hscan
  have hset : (a ++ '|' :: (ws ++ NUL :: rest)).set a.length NUL =
      (a ++ [NUL]) ++ ws ++ NUL :: rest := by
    rw [set_mid]; simp
  have hskip : parsePipes.skip (((a ++ '|' :: (ws ++ NUL :: rest)).set a.length NUL).length + 1)
      ((a ++ '|' :: (ws ++ NUL :: rest)).set a.length NUL) a.length =
      Exec.ok (a.length + 1 + ws.length) := by
    rw [hset]
    exact parsePipes_skip_spec NUL rest isspace_NUL ws (a ++ [NUL]) _ a.length hws (by simp)
      (by simp; omega)
  obtain ⟨d, hd⟩ : ∃ d, ((a ++ '|' :: (ws ++ NUL :: rest)).set a.length NUL)[a.length + 1]? =
      some d := by
    rw [hset]
    cases ws with
    | nil => exact ⟨NUL, by simpa using getElem?_mid (a ++ [NUL]) NUL rest⟩
    | cons c ws => exact ⟨c, by simpa using getElem?_mid (a ++ [NUL]) c (ws ++ NUL :: rest)⟩
  have hpipe := parsePipes_loop_pipe (f + 1) (a ++ '|' :: (ws ++ NUL :: rest)) a.length 1
    (a.length + 1 + ws.length) ([some 0] ++ y :: free)
    ([some 0] ++ some (a.length + 1 + ws.length) :: free) [] d (getElem?_mid _ _ _) hd hskip
    (writeArr_mid [some 0] free y _)
  refine ⟨f, if isspace d = true then [] else [] ++ [pipeWarning], ?_⟩
  simp only [parsePipes, hw]
  rw [hm, hscan, hpipe, hset]
  have hidx : a.length + 1 + ws.length + 1 = (a ++ '|' :: ws).length + 1 := by
    simp; omega
  rw [hidx]
  simp

/-- C9: what the code does on a line whose last `|` is followed by nothing or by
whitespace only. The inner loop stops on the terminator and the `i++` that follows
steps over it, so the next read is at `length + 1`: in the buffer that `get_command`
leaves (a second terminator follows the line) the loop ends there, and in a buffer
that ends with the line the read is outside it. -/
theorem parsePipes_reads_past_terminator (a ws tail : List Char)
    (myCommands : List (Option Nat)) (hp : '|' ∉ a) (hn : NUL ∉ a)
    (hws : ∀ c ∈ ws, isspace c = true) (hcap : 3 ≤ myCommands.length) :
    parsePipes.lastIndex (a ++ '|' :: ws ++ NUL :: NUL :: tail) myCommands =
        some ((a ++ '|' :: ws).length + 1) ∧
      parsePipes (a ++ '|' :: ws ++ NUL :: []) myCommands = Exec.fault := by
  obtain ⟨x, y, z, free, rfl⟩ : ∃ x y z free, myCommands = x :: y :: z :: free := by
    match myCommands, hcap with
    | x :: y :: z :: free, _ => exact ⟨x, y, z, free, rfl⟩
  constructor
  · obtain ⟨f, err, hrun⟩ :=
      parsePipes_trailing_pipe a ws (NUL :: tail) x y (z :: free) hp hn hws
    have hread : (a ++ NUL :: ws ++ NUL :: NUL :: tail)[(a ++ '|' :: ws).length + 1]? =
        some NUL := by
      have := getElem?_mid_succ (a ++ NUL :: ws) NUL NUL tail
      simpa using this
    have hw2 : writeArr (some 0 :: some (a.length + 1 + ws.length) :: z :: free) 2 none =
        some (some 0 :: some (a.length + 1 + ws.length) :: none :: free) :=
      writeArr_mid [some 0, some (a.length + 1 + ws.length)] free z none
    rw [parsePipes.lastIndex, hrun, parsePipes_loop_end f _ _ 2 _ _ err hread hw2]
  · obtain ⟨f, err, hrun⟩ := parsePipes_trailing_pipe a ws [] x y (z :: free) hp hn hws
    have hread : (a ++ NUL :: ws ++ NUL :: [])[(a ++ '|' :: ws).length + 1]? = none :=
      List.getElem?_eq_none (by simp; omega)
    rw [hrun, parsePipes_loop_fault f _ _ 2 _ err hread]

/-- The failing input of C9: `"ls |"` has length 4 and the loop ends with `i = 5`;
`"ls | "` has length 5 and the loop ends with `i = 6`; when other bytes follow the
terminator the scan goes on through them. -/
theorem parsePipes_reads_past_terminator_witness :
    parsePipes.lastIndex (cline "ls |" [NUL]) emptyArr = some 5 ∧
      parsePipes (cline "ls |" []) emptyArr = Exec.fault ∧
      parsePipes.lastIndex (cline "ls | " [NUL]) emptyArr = some 6 ∧
      parsePipes.segments (cline "ls |" (cline "x|y" [])) emptyArr =
        some ["ls ".toList, [], "y".toList] := by
  have h := parsePipes_reads_past_terminator "ls ".toList [] [] emptyArr (by decide)
    (by decide) (by decide) (by decide)
  exact ⟨h.1, h.2, by decide, by decide⟩

theorem sysOpen_some (os : OS) (path : List Char) (mode : OpenMode) (p p1 : Proc) (fd : Nat)
    (h : sysOpen os path mode p = (some fd, p1)) :
    fd = p.fds.lowestFree ∧ p1.fds = p.fds.put fd (some (Desc.file path mode)) := by
  unfold sysOpen at h
  split at h
  · simp only [Prod.mk.injEq, Option.some.injEq] at h
    obtain ⟨h1, h2⟩ := h
    subst h1
    subst h2
    exact ⟨rfl, rfl⟩
  · simp at h

theorem sysDup2_true (os : OS) (oldfd newfd : Nat) (p p1 : Proc)
    (h : sysDup2 os oldfd newfd p = (true, p1)) :
    ∃ d, p.fds.get oldfd = some d ∧ p1.fds = p.fds.put newfd (some d) := by
  unfold sysDup2 at h
  split at h
  · simp at h
  · rename_i d hd
    split at h
    · simp only [Prod.mk.injEq, true_and] at h
      subst h
      exact ⟨d, hd, rfl⟩
    · simp at h

/-- One redirection (`open`, `dup2` onto `target`, `close`) leaves the pipe where it
is, when `target` is not the descriptor of the pipe. -/
theorem pipeOnlyAt_redirect (os : OS) (path : List Char) (mode : OpenMode) (target k0 : Nat)
    (e : Desc) (p p1 p2 : Proc) (fd : Nat) (hk : target ≠ k0)
    (hinv : p.fds.pipeOnlyAt k0 e = true)
    (hopen : sysOpen os path mode p = (some fd, p1))
    (hdup : sysDup2 os fd target p1 = (true, p2)) :
    (sysClose fd p2).fds.pipeOnlyAt k0 e = true := by
  rw [FdTable.pipeOnlyAt_iff] at hinv ⊢
  obtain ⟨h0, hrest⟩ := hinv
  obtain ⟨hfd, hp1⟩ := sysOpen_some os path mode p p1 fd hopen
  obtain ⟨d, hd, hp2⟩ := sysDup2_true os fd target p1 p2 hdup
  have hdfile : d = Desc.file path mode := by
    rw [hp1, FdTable.get_put_same] at hd
    exact (Option.some.inj hd).symm
  have hfdk : fd ≠ k0 := by
    intro h
    have := FdTable.get_lowestFree p.fds
    rw [← hfd, h, h0] at this
    exact Option.noConfusion this
  constructor
  · rw [sysClose_get, if_neg (Ne.symm hfdk), hp2, FdTable.get_put_other _ _ _ _ (Ne.symm hk),
      hp1, FdTable.get_put_other _ _ _ _ (Ne.symm hfdk)]
    exact h0
  · intro k d1 hkk hget
    rw [sysClose_get] at hget
    by_cases hkfd : k = fd
    · rw [if_pos hkfd] at hget
      exact Option.noConfusion hget
    · rw [if_neg hkfd, hp2] at hget
      by_cases hkt : k = target
      · rw [hkt, FdTable.get_put_same] at hget
        rw [← Option.some.inj hget, hdfile]
        rfl
      · rw [FdTable.get_put_other _ _ _ _ hkt, hp1, FdTable.get_put_other _ _ _ _ hkfd] at hget
        exact hrest k d1 hkk hget

/-- The loop of `redirectOutput` and `redirectInput` leaves the pipe where it is, when
`target` is not the descriptor of the pipe. -/
theorem redirect_loop_pipeOnly (os : OS) (op : Char) (mode : OpenMode) (target : Nat)
    (m1 m2 m3 : String) (mem : List Char) (k0 : Nat) (e : Desc) (hk : target ≠ k0) :
    ∀ (fuel i : Nat) (myArgs : List (Option Nat)) (p : Proc) (a : List (Option Nat)) (q : Proc),
      p.fds.pipeOnlyAt k0 e = true →
      redirect.loop os op mode target m1 m2 m3 mem fuel i myArgs p = Flow.cont a q →
      q.fds.pipeOnlyAt k0 e = true := by
  intro fuel
  induction fuel with
  | zero =>
    intro i myArgs p a q _ h
    simp [redirect.loop] at h
  | succ f ih =>
    intro i myArgs p a q hinv h
    rw [redirect.loop] at h
    split at h
    · exact Flow.noConfusion h
    · injection h with _ hq
      rw [← hq]
      exact hinv
    · split at h
      · split at h
        · exact Flow.noConfusion h
        · split at h
          · exact Flow.noConfusion h
          · rename_i hopen
            split at h
            · exact Flow.noConfusion h
            · rename_i hdup
              exact ih _ _ _ a q
                (pipeOnlyAt_redirect os _ mode target k0 e _ _ _ _ hk hinv hopen hdup) h
        · exact ih _ _ (p.diag m3) a q hinv h
      · exact ih _ _ _ a q hinv h

theorem execvp_launched (os : OS) (mem : List Char) (myArgs : List (Option Nat)) (p q : Proc)
    (prog : List Char) (args : List (List Char))
    (h : execvp os mem myArgs p = some (Stop.launched prog args q)) : q = p := by
  unfold execvp at h
  split at h
  · simp at h
  · simp at h
  · split at h
    · simp at h
    · split at h
      · simp only [Option.some.injEq, Stop.launched.injEq] at h
        exact h.2.2.symm
      · simp at h

/-- The first child launches with the descriptors it had before `handle_arguments`,
as far as the pipe goes. -/
theorem helperExecutePiping.stage1_pipeOnly (os : OS) (mem : List Char)
    (commands myArgs : List (Option Nat)) (p q : Proc) (prog : List Char)
    (args : List (List Char)) (hinv : p.fds.pipeOnlyAt 1 Desc.pipeWrite = true)
    (h : helperExecutePiping.stage1 os mem commands myArgs p = Stop.launched prog args q) :
    q.fds.pipeOnlyAt 1 Desc.pipeWrite = true := by
  unfold helperExecutePiping.stage1 at h
  split at h
  · exact Stop.noConfusion h
  · exact Stop.noConfusion h
  · split at h
    · exact Stop.noConfusion h
    · exact Stop.noConfusion h
    · split at h
      · exact Stop.noConfusion h
      · exact Stop.noConfusion h
      · exact Stop.noConfusion h
      · rename_i hred
        have hp2 := redirect_loop_pipeOnly os _ _ 0 _ _ _ _ 1 Desc.pipeWrite (by decide)
          _ _ _ _ _ _ hinv hred
        split at h
        · rename_i hexec
          rw [h] at hexec
          rw [execvp_launched os _ _ _ _ _ _ hexec]
          exact hp2
        · exact Stop.noConfusion h

/-- The second child launches with the descriptors it had before `handle_arguments`,
as far as the pipe goes. -/
theorem helperExecutePiping.stage2_pipeOnly (os : OS) (mem : List Char)
    (commands myArgs : List (Option Nat)) (p q : Proc) (prog : List Char)
    (args : List (List Char)) (hinv : p.fds.pipeOnlyAt 0 Desc.pipeRead = true)
    (h : helperExecutePiping.stage2 os mem commands myArgs p = Stop.launched prog args q) :
    q.fds.pipeOnlyAt 0 Desc.pipeRead = true := by
  unfold helperExecutePiping.stage2 at h
  split at h
  · exact Stop.noConfusion h
  · exact Stop.noConfusion h
  · split at h
    · exact Stop.noConfusion h
    · exact Stop.noConfusion h
    · split at h
      · exact Stop.noConfusion h
      · exact Stop.noConfusion h
      · exact Stop.noConfusion h
      · rename_i hred
        have hp2 := redirect_loop_pipeOnly os _ _ 1 _ _ _ _ 0 Desc.pipeRead (by decide)
          _ _ _ _ _ _ hinv hred
        split at h
        · rename_i hexec
          rw [h] at hexec
          rw [execvp_launched os _ _ _ _ _ _ hexec]
          exact hp2
        · exact Stop.noConfusion h

/-- The descriptors `pipe` hands out: two different ones, bound to the two ends, and
the rest of the table as it was. -/
theorem sysPipe_some (os : OS) (p p0 : Proc) (r w : Nat)
    (h : sysPipe os p = some (r, w, p0)) :
    r ≠ w ∧ p0.fds.get r = some Desc.pipeRead ∧ p0.fds.get w = some Desc.pipeWrite ∧
      (∀ k, k ≠ w → k ≠ r → p0.fds.get k = p.fds.get k) ∧ p0.waits = p.waits := by
  unfold sysPipe at h
  split at h
  · simp only [Option.some.injEq, Prod.mk.injEq] at h
    obtain ⟨hr, hw, hp0⟩ := h
    have hrw : r ≠ w := by
      intro hEq
      have h1 := FdTable.get_lowestFree (p.fds.put p.fds.lowestFree (some Desc.pipeRead))
      rw [hw, ← hEq, ← hr, FdTable.get_put_same] at h1
      exact Option.noConfusion h1
    subst hp0
    refine ⟨hrw, ?_, ?_, ?_, rfl⟩
    · show ((p.fds.put p.fds.lowestFree (some Desc.pipeRead)).put _ _).get r = _
      rw [hw, FdTable.get_put_other _ _ _ _ hrw, hr, FdTable.get_put_same]
    · show ((p.fds.put p.fds.lowestFree (some Desc.pipeRead)).put _ _).get w = _
      rw [hw, FdTable.get_put_same]
    · intro k hkw hkr
      show ((p.fds.put p.fds.lowestFree (some Desc.pipeRead)).put _ _).get k = _
      rw [hw, FdTable.get_put_other _ _ _ _ hkw, hr, FdTable.get_put_other _ _ _ _ hkr]
  · exact Option.noConfusion h

theorem helperExecutePiping.plumb1_spec (os : OS) (r w : Nat) (p0 : Proc) (hrw : r ≠ w)
    (hr1 : r ≠ 1) (hw1 : w ≠ 1) (hgw : p0.fds.get w = some Desc.pipeWrite)
    (hother : ∀ k d, k ≠ w → k ≠ r → p0.fds.get k = some d → d.isPipe = false)
    (hdup : os.dup2Ok w 1 = true) :
    ∃ p1, helperExecutePiping.plumb1 os r w p0 = some p1 ∧
      p1.fds.pipeOnlyAt 1 Desc.pipeWrite = true ∧ p1.fds.get r = none ∧
      p1.fds.get w = none := by
  obtain ⟨p2, hd, hfds, _, _⟩ := sysDup2_ok_ex os w 1 (sysClose r p0) Desc.pipeWrite
    (by rw [sysClose_get, if_neg (Ne.symm hrw)]; exact hgw) hdup
  refine ⟨sysClose w p2, by simp only [helperExecutePiping.plumb1, hd], ?_, ?_, ?_⟩
  · rw [FdTable.pipeOnlyAt_iff]
    constructor
    · rw [sysClose_get, if_neg (Ne.symm hw1), hfds, FdTable.get_put_same]
    · intro k d hk hget
      rw [sysClose_get] at hget
      by_cases hkw : k = w
      · rw [if_pos hkw] at hget
        exact Option.noConfusion hget
      · rw [if_neg hkw, hfds, FdTable.get_put_other _ _ _ _ hk, sysClose_get] at hget
        by_cases hkr : k = r
        · rw [if_pos hkr] at hget
          exact Option.noConfusion hget
        · rw [if_neg hkr] at hget
          exact hother k d hkw hkr hget
  · rw [sysClose_get, if_neg hrw, hfds, FdTable.get_put_other _ _ _ _ hr1, sysClose_get,
      if_pos rfl]
  · rw [sysClose_get, if_pos rfl]

theorem helperExecutePiping.plumb2_spec (os : OS) (r w : Nat) (p0 : Proc) (hrw : r ≠ w)
    (hr0 : r ≠ 0) (hw0 : w ≠ 0) (hgr : p0.fds.get r = some Desc.pipeRead)
    (hother : ∀ k d, k ≠ w → k ≠ r → p0.fds.get k = some d → d.isPipe = false)
    (hdup : os.dup2Ok r 0 = true) :
    ∃ p1, helperExecutePiping.plumb2 os r w p0 = some p1 ∧
      p1.fds.pipeOnlyAt 0 Desc.pipeRead = true ∧ p1.fds.get r = none ∧
      p1.fds.get w = none := by
  obtain ⟨p2, hd, hfds, _, _⟩ := sysDup2_ok_ex os r 0 (sysClose w p0) Desc.pipeRead
    (by rw [sysClose_get, if_neg hrw]; exact hgr) hdup
  refine ⟨sysClose r p2, by simp only [helperExecutePiping.plumb2, hd], ?_, ?_, ?_⟩
  · rw [FdTable.pipeOnlyAt_iff]
    constructor
    · rw [sysClose_get, if_neg (Ne.symm hr0), hfds, FdTable.get_put_same]
    · intro k d hk hget
      rw [sysClose_get] at hget
      by_cases hkr : k = r
      · rw [if_pos hkr] at hget
        exact Option.noConfusion hget
      · rw [if_neg hkr, hfds, FdTable.get_put_other _ _ _ _ hk, sysClose_get] at hget
        by_cases hkw : k = w
        · rw [if_pos hkw] at hget
          exact Option.noConfusion hget
        · rw [if_neg hkw] at hget
          exact hother k d hkw hkr hget
  · rw [sysClose_get, if_pos rfl]
  · rw [sysClose_get, if_neg (Ne.symm hrw), hfds, FdTable.get_put_other _ _ _ _ hw0,
      sysClose_get, if_pos rfl]

/-- C8: in `helperExecutePiping`, when `pipe` succeeds with descriptors `r` and `w`
other than 0 and 1 and both `dup2` calls succeed: the parent makes its two `wait`
calls with a table that does not refer to the pipe; the first child reaches
`handle_arguments` with the write end on descriptor 1, `r` and `w` closed and no other
reference to the pipe, and so it still is when the program is launched; the second
child likewise with the read end on descriptor 0. -/
theorem helperExecutePiping_pipe_ends (os : OS) (fork1 fork2 : Int) (mem : List Char)
    (commands myArgs : List (Option Nat)) (p p0 : Proc) (r w : Nat)
    (hfresh : p.fds.noPipe = true) (hpipe : sysPipe os p = some (r, w, p0))
    (hr : r ≠ 0 ∧ r ≠ 1) (hw : w ≠ 0 ∧ w ≠ 1)
    (hdup1 : os.dup2Ok w 1 = true) (hdup2 : os.dup2Ok r 0 = true) :
    (fork1 ≠ 0 → fork2 ≠ 0 →
      ∃ q, helperExecutePiping os fork1 fork2 mem commands myArgs p = Stop.returned q ∧
        q.waits = p.waits ++ [q.fds, q.fds] ∧ q.fds.noPipe = true) ∧
    (fork1 = 0 →
      ∃ p1, helperExecutePiping.plumb1 os r w p0 = some p1 ∧
        p1.fds.pipeOnlyAt 1 Desc.pipeWrite = true ∧ p1.fds.get r = none ∧
        p1.fds.get w = none ∧
        helperExecutePiping os fork1 fork2 mem commands myArgs p =
          helperExecutePiping.stage1 os mem commands myArgs p1 ∧
        ∀ prog args q,
          helperExecutePiping.stage1 os mem commands myArgs p1 = Stop.launched prog args q →
          q.fds.pipeOnlyAt 1 Desc.pipeWrite = true) ∧
    (fork1 ≠ 0 → fork2 = 0 →
      ∃ p1, helperExecutePiping.plumb2 os r w p0 = some p1 ∧
        p1.fds.pipeOnlyAt 0 Desc.pipeRead = true ∧ p1.fds.get r = none ∧
        p1.fds.get w = none ∧
        helperExecutePiping os fork1 fork2 mem commands myArgs p =
          helperExecutePiping.stage2 os mem commands myArgs p1 ∧
        ∀ prog args q,
          helperExecutePiping.stage2 os mem commands myArgs p1 = Stop.launched prog args q →
          q.fds.pipeOnlyAt 0 Desc.pipeRead = true) := by
  obtain ⟨hrw, hgr, hgw, hsame, hwaits⟩ := sysPipe_some os p p0 r w hpipe
  have hfree := (FdTable.noPipe_iff p.fds).mp hfresh
  have hother : ∀ k d, k ≠ w → k ≠ r → p0.fds.get k = some d → d.isPipe = false := by
    intro k d hkw hkr hget
    rw [hsame k hkw hkr] at hget
    exact hfree k d hget
  refine ⟨?_, ?_, ?_⟩
  · intro h1 h2
    refine ⟨helperExecutePiping.parent r w p0, ?_, ?_, ?_⟩
    · simp only [helperExecutePiping, hpipe, h1, h2, ne_eq, not_false_eq_true, if_true]
    · simp only [helperExecutePiping.parent, sysWait, sysClose_waits, hwaits,
        List.append_assoc, List.singleton_append]
    · rw [FdTable.noPipe_iff]
      intro k d hget
      have hget1 : (sysClose w (sysClose r p0)).fds.get k = some d := hget
      rw [sysClose_get] at hget1
      by_cases hkw : k = w
      · rw [if_pos hkw] at hget1
        exact Option.noConfusion hget1
      · rw [if_neg hkw, sysClose_get] at hget1
        by_cases hkr : k = r
        · rw [if_pos hkr] at hget1
          exact Option.noConfusion hget1
        · rw [if_neg hkr] at hget1
          exact hother k d hkw hkr hget1
  · intro h1
    obtain ⟨p1, hplumb, hinv, hcr, hcw⟩ :=
      helperExecutePiping.plumb1_spec os r w p0 hrw hr.2 hw.2 hgw hother hdup1
    refine ⟨p1, hplumb, hinv, hcr, hcw, ?_, fun prog args q hl =>
      helperExecutePiping.stage1_pipeOnly os mem commands myArgs p1 q prog args hinv hl⟩
    simp only [helperExecutePiping, hpipe, h1, ne_eq, not_true_eq_false, if_false, hplumb]
  · intro h1 h2
    obtain ⟨p1, hplumb, hinv, hcr, hcw⟩ :=
      helperExecutePiping.plumb2_spec os r w p0 hrw hr.1 hw.1 hgr hother hdup2
    refine ⟨p1, hplumb, hinv, hcr, hcw, ?_, fun prog args q hl =>
      helperExecutePiping.stage2_pipeOnly os mem commands myArgs p1 q prog args hinv hl⟩
    simp only [helperExecutePiping, hpipe, h1, h2, ne_eq, not_false_eq_true, if_true,
      not_true_eq_false, if_false, hplumb]

/-- The witness of C8: the three processes of `printf a | wc -c`, started from the
three standard descriptors, where `pipe` returns descriptors 3 and 4. -/
theorem helperExecutePiping_pipe_ends_witness :
    (∃ q, helperExecutePiping allOk 1 2 (cline "printf a " (cline " wc -c" []))
        ([some 0, some 11, none] ++ emptyArr) emptyArr shellProc = Stop.returned q ∧
      q.fds.noPipe = true) ∧
    (∃ q, helperExecutePiping allOk 0 0 (cline "printf a " (cline " wc -c" []))
        ([some 0, some 11, none] ++ emptyArr) emptyArr shellProc =
        Stop.launched "printf".toList ["printf".toList, "a".toList] q ∧
      q.fds.pipeOnlyAt 1 Desc.pipeWrite = true) ∧
    (∃ q, helperExecutePiping allOk 1 0 (cline "printf a " (cline " wc -c" []))
        ([some 0, some 11, none] ++ emptyArr) emptyArr shellProc =
        Stop.launched "wc".toList ["wc".toList, "-c".toList] q ∧
      q.fds.pipeOnlyAt 0 Desc.pipeRead = true) := by
  have hpipe : sysPipe allOk shellProc = some (3, 4,
      ⟨[some (Desc.inherited 0), some (Desc.inherited 1), some (Desc.inherited 2),
        some Desc.pipeRead, some Desc.pipeWrite], [], []⟩) := by decide
  refine ⟨?_, ?_, ?_⟩
  · obtain ⟨q, hrun, _, hq⟩ :=
      (helperExecutePiping_pipe_ends allOk 1 2 (cline "printf a " (cline " wc -c" []))
        ([some 0, some 11, none] ++ emptyArr) emptyArr shellProc _ 3 4 (by decide) hpipe
        (by decide) (by decide) (by decide) (by decide)).1 (by decide) (by decide)
    exact ⟨q, hrun, hq⟩
  · obtain ⟨p1, _, _, _, _, hrun, hlaunch⟩ :=
      (helperExecutePiping_pipe_ends allOk 0 0 (cline "printf a " (cline " wc -c" []))
        ([some 0, some 11, none] ++ emptyArr) emptyArr shellProc _ 3 4 (by decide) hpipe
        (by decide) (by decide) (by decide) (by decide)).2.1 rfl
    have hl : helperExecutePiping allOk 0 0 (cline "printf a " (cline " wc -c" []))
        ([some 0, some 11, none] ++ emptyArr) emptyArr shellProc =
        Stop.launched "printf".toList ["printf".toList, "a".toList]
          ⟨[some (Desc.inherited 0), some Desc.pipeWrite, some (Desc.inherited 2), none,
            none], [], []⟩ := by decide
    exact ⟨_, hl, hlaunch _ _ _ (hrun ▸ hl)⟩
  · obtain ⟨p1, _, _, _, _, hrun, hlaunch⟩ :=
      (helperExecutePiping_pipe_ends allOk 1 0 (cline "printf a " (cline " wc -c" []))
        ([some 0, some 11, none] ++ emptyArr) emptyArr shellProc _ 3 4 (by decide) hpipe
        (by decide) (by decide) (by decide) (by decide)).2.2 (by decide) rfl
    have hl : helperExecutePiping allOk 1 0 (cline "printf a " (cline " wc -c" []))
        ([some 0, some 11, none] ++ emptyArr) emptyArr shellProc =
        Stop.launched "wc".toList ["wc".toList, "-c".toList]
          ⟨[some Desc.pipeRead, some (Desc.inherited 1), some (Desc.inherited 2), none,
            none], [], []⟩ := by decide
    exact ⟨_, hl, hlaunch _ _ _ (hrun ▸ hl)⟩

theorem sysOpen_ne_none (os : OS) (path : List Char) (mode : OpenMode) (p p1 : Proc)
    (hopen : os.openOk path mode = true) : sysOpen os path mode p ≠ (none, p1) := by
  intro h
  simp [sysOpen, hopen] at h

/-- The loop of `redirectOutput` and `redirectInput` does not call `exit` when `open`
and `dup2` succeed. -/
theorem redirect_loop_ne_exit (os : OS) (op : Char) (mode : OpenMode) (target : Nat)
    (m1 m2 m3 : String) (mem : List Char) (hopen : ∀ path md, os.openOk path md = true)
    (hdup : ∀ a b, os.dup2Ok a b = true) :
    ∀ (fuel i : Nat) (myArgs : List (Option Nat)) (p : Proc) (st : Nat) (q : Proc),
      redirect.loop os op mode target m1 m2 m3 mem fuel i myArgs p ≠ Flow.exit st q := by
  intro fuel
  induction fuel with
  | zero =>
    intro i myArgs p st q h
    simp [redirect.loop] at h
  | succ f ih =>
    intro i myArgs p st q h
    rw [redirect.loop] at h
    split at h
    · exact Flow.noConfusion h
    · exact Flow.noConfusion h
    · split at h
      · split at h
        · exact Flow.noConfusion h
        · split at h
          · rename_i hsys
            exact sysOpen_ne_none os _ mode p _ (hopen _ _) hsys
          · rename_i hsys
            obtain ⟨_, hp1⟩ := sysOpen_some os _ mode p _ _ hsys
            split at h
            · rename_i hd
              have := sysDup2_ok os _ target _ _
                (by rw [hp1]; exact FdTable.get_put_same _ _ _) (hdup _ target)
              rw [this] at hd
              simp at hd
            · exact ih _ _ _ st q h
        · exact ih _ _ (p.diag m3) st q h
      · exact ih _ _ _ st q h

theorem execvp_fails (os : OS) (mem : List Char) (myArgs : List (Option Nat)) (p : Proc)
    (hexec : ∀ prog, os.execOk prog = false) :
    execvp os mem myArgs p = none ∨ execvp os mem myArgs p = some Stop.fault := by
  unfold execvp
  split
  · exact Or.inr rfl
  · exact Or.inr rfl
  · split
    · exact Or.inr rfl
    · simp [hexec]

/-- C7: what the code does when `execvp` fails and no redirection does. No child
calls `exit`: the run of the child of `helperExecuteNoPipe`, and of each of the two
children of `helperExecutePiping` from `handle_arguments` on, ends neither in `exit`
nor in a launched program, so when the code runs to its end the helper has returned
to its caller. -/
theorem failed_launch_returns_to_caller (os : OS) (mem : List Char) (seg : Nat)
    (commands myArgs : List (Option Nat)) (p : Proc)
    (hopen : ∀ path md, os.openOk path md = true) (hdup : ∀ a b, os.dup2Ok a b = true)
    (hexec : ∀ prog, os.execOk prog = false) :
    (∀ stop, stop = helperExecuteNoPipe os 0 mem seg myArgs p ∨
        stop = helperExecutePiping.stage1 os mem commands myArgs p ∨
        stop = helperExecutePiping.stage2 os mem commands myArgs p →
      (∀ st q, stop ≠ Stop.exited st q) ∧
        (∀ prog args q, stop ≠ Stop.launched prog args q)) := by
  have hno := redirect_loop_ne_exit os
  intro stop hstop
  rcases hstop with h | h | h
  · subst h
    simp only [helperExecuteNoPipe, ne_eq, not_true_eq_false, if_false,
      helperExecuteNoPipe.child]
    split
    · exact ⟨fun _ _ h => Stop.noConfusion h, fun _ _ _ h => Stop.noConfusion h⟩
    · exact ⟨fun _ _ h => Stop.noConfusion h, fun _ _ _ h => Stop.noConfusion h⟩
    · split
      · exact ⟨fun _ _ h => Stop.noConfusion h, fun _ _ _ h => Stop.noConfusion h⟩
      · exact ⟨fun _ _ h => Stop.noConfusion h, fun _ _ _ h => Stop.noConfusion h⟩
      · rename_i hred
        exact absurd hred (hno _ _ _ _ _ _ _ hopen hdup _ _ _ _ _ _)
      · split
        · exact ⟨fun _ _ h => Stop.noConfusion h, fun _ _ _ h => Stop.noConfusion h⟩
        · exact ⟨fun _ _ h => Stop.noConfusion h, fun _ _ _ h => Stop.noConfusion h⟩
        · rename_i hred
          exact absurd hred (hno _ _ _ _ _ _ _ hopen hdup _ _ _ _ _ _)
        · rcases execvp_fails os _ _ _ hexec with he | he <;> rw [he] <;>
            exact ⟨fun _ _ h => Stop.noConfusion h, fun _ _ _ h => Stop.noConfusion h⟩
  · subst h
    simp only [helperExecutePiping.stage1]
    split
    · exact ⟨fun _ _ h => Stop.noConfusion h, fun _ _ _ h => Stop.noConfusion h⟩
    · exact ⟨fun _ _ h => Stop.noConfusion h, fun _ _ _ h => Stop.noConfusion h⟩
    · split
      · exact ⟨fun _ _ h => Stop.noConfusion h, fun _ _ _ h => Stop.noConfusion h⟩
      · exact ⟨fun _ _ h => Stop.noConfusion h, fun _ _ _ h => Stop.noConfusion h⟩
      · split
        · exact ⟨fun _ _ h => Stop.noConfusion h, fun _ _ _ h => Stop.noConfusion h⟩
        · exact ⟨fun _ _ h => Stop.noConfusion h, fun _ _ _ h => Stop.noConfusion h⟩
        · rename_i hred
          exact absurd hred (hno _ _ _ _ _ _ _ hopen hdup _ _ _ _ _ _)
        · rcases execvp_fails os _ _ _ hexec with he | he <;> rw [he] <;>
            exact ⟨fun _ _ h => Stop.noConfusion h, fun _ _ _ h => Stop.noConfusion h⟩
  · subst h
    simp only [helperExecutePiping.stage2]
    split
    · exact ⟨fun _ _ h => Stop.noConfusion h, fun _ _ _ h => Stop.noConfusion h⟩
    · exact ⟨fun _ _ h => Stop.noConfusion h, fun _ _ _ h => Stop.noConfusion h⟩
    · split
      · exact ⟨fun _ _ h => Stop.noConfusion h, fun _ _ _ h => Stop.noConfusion h⟩
      · exact ⟨fun _ _ h => Stop.noConfusion h, fun _ _ _ h => Stop.noConfusion h⟩
      · split
        · exact ⟨fun _ _ h => Stop.noConfusion h, fun _ _ _ h => Stop.noConfusion h⟩
        · exact ⟨fun _ _ h => Stop.noConfusion h, fun _ _ _ h => Stop.noConfusion h⟩
        · rename_i hred
          exact absurd hred (hno _ _ _ _ _ _ _ hopen hdup _ _ _ _ _ _)
        · rcases execvp_fails os _ _ _ hexec with he | he <;> rw [he] <;>
            exact ⟨fun _ _ h => Stop.noConfusion h, fun _ _ _ h => Stop.noConfusion h⟩

/-- The failing inputs of C7: the line `"nosuchprogram"` and the empty line in
single-command mode, where the child writes nothing and returns to the caller, and
`"nosuch1 | nosuch2"`, where each child writes its message and returns to the
caller. -/
theorem failed_launch_returns_to_caller_witness :
    helperExecuteNoPipe noSuchProgram 0 (cline "nosuchprogram" []) 0 emptyArr shellProc =
        Stop.returned shellProc ∧
      (∀ st q, helperExecuteNoPipe noSuchProgram 0 (cline "nosuchprogram" []) 0 emptyArr
        shellProc ≠ Stop.exited st q) ∧
      execute_command noSuchProgram 0 0 (cline "" []) emptyArr emptyArr shellProc =
        Stop.returned shellProc ∧
      execute_command noSuchProgram 0 0 (cline "nosuch1 | nosuch2" []) emptyArr emptyArr
          shellProc =
        Stop.returned ⟨[some (Desc.inherited 0), some Desc.pipeWrite, some (Desc.inherited 2),
          none, none], ["Error: Unknown command 1\n"], []⟩ ∧
      execute_command noSuchProgram 1 0 (cline "nosuch1 | nosuch2" []) emptyArr emptyArr
          shellProc =
        Stop.returned ⟨[some Desc.pipeRead, some (Desc.inherited 1), some (Desc.inherited 2),
          none, none], ["Error: Unknown command 2\n"], []⟩ := by
  have h := (failed_launch_returns_to_caller noSuchProgram (cline "nosuchprogram" []) 0
    emptyArr emptyArr shellProc (fun _ _ => rfl) (fun _ _ => rfl) (fun _ => rfl) _
    (Or.inl rfl)).1
  exact ⟨by decide, h, by decide, by decide, by decide⟩

end Shell209
